import Mathlib

/-!
Shallow embedding of the `telran-backend-hw27` LFU cache.

Source files modelled:
  * `src/dict_cache.py` — `DictCache`, an `OrderedDict` subclass acting as a
    bounded LRU primitive (keys specialised to `Nat`, values generic).
  * `src/lfu_dict_cache.py` — `LfuDictCache`, the LFU-with-LRU-tie-break cache.

Python dictionaries are modelled as association lists that keep insertion
order: updating an existing key rewrites its value in place, inserting a new
key appends at the end, deleting removes the (unique) matching pair.  The
`SortedDict` from `sortedcontainers` is modelled as an association list kept
sorted ascending by key.  Raising `KeyError` / `ValueError` is modelled by
returning `none`.
-/

namespace LfuModel

/-! ### Python dict primitives (association lists in insertion order) -/

/-- Reading `d[k]` from a Python dict: first (and, for genuine dicts, only)
binding of `k`. -/
def lookup? {A : Type} : List (Nat × A) → Nat → Option A
  | [], _ => none
  | (k', v) :: t, k => if k' = k then some v else lookup? t k

/-- Membership test `k in d`. -/
def containsKey {A : Type} : List (Nat × A) → Nat → Bool
  | [], _ => false
  | (k', _) :: t, k => decide (k' = k) || containsKey t k

/-- Writing `d[k] = v` on a Python dict: overwrite in place if the key is
present, otherwise append at the end (insertion order). -/
def dictSet {A : Type} : List (Nat × A) → Nat → A → List (Nat × A)
  | [], k, v => [(k, v)]
  | (k', v') :: t, k, v => if k' = k then (k, v) :: t else (k', v') :: dictSet t k v

/-- Deleting `del d[k]`: remove the first (unique) binding of `k`. -/
def dictErase {A : Type} : List (Nat × A) → Nat → List (Nat × A)
  | [], _ => []
  | (k', v') :: t, k => if k' = k then t else (k', v') :: dictErase t k

/-- Writing `d[k] = v` on a `SortedDict`: replace in place if present,
otherwise insert at the ascending-sorted position. -/
def sortedSet {A : Type} : List (Nat × A) → Nat → A → List (Nat × A)
  | [], k, v => [(k, v)]
  | (k', v') :: t, k, v =>
    if k < k' then (k, v) :: (k', v') :: t
    else if k' = k then (k, v) :: t
    else (k', v') :: sortedSet t k v

/-! ### `DictCache` (src/dict_cache.py) -/

/-- The `DictCache(OrderedDict)` class: a `maxsize` plus the ordered entries. -/
structure DictCache (A : Type) where
  maxsize : Nat
  entries : List (Nat × A)
deriving DecidableEq

/-- The `OrderedDict.move_to_end(key)` operation: re-append the binding of
`key` at the most-recent end.  (In the source it is only invoked on keys that
are present; the `none` branch is never reached.) -/
def moveToEnd {A : Type} (l : List (Nat × A)) (k : Nat) : List (Nat × A) :=
  match lookup? l k with
  | none => l
  | some v => dictErase l k ++ [(k, v)]

namespace DictCache

/-- The overridden `DictCache.__setitem__`: store, move to the most-recent
end, and silently pop the oldest entry if the size now exceeds `maxsize`. -/
def setitem {A : Type} (c : DictCache A) (k : Nat) (v : A) : DictCache A :=
  let l := moveToEnd (dictSet c.entries k v) k
  ⟨c.maxsize, if l.length > c.maxsize then l.tail else l⟩

/-- Variant of `setitem` with the silent-drop branch removed; used to state
that the drop branch is never executed by the LFU layer. -/
def setitemFree {A : Type} (c : DictCache A) (k : Nat) (v : A) : DictCache A :=
  ⟨c.maxsize, moveToEnd (dictSet c.entries k v) k⟩

/-- The overridden `DictCache.__getitem__`: read the value and move the key
to the most-recent end; `none` models the `KeyError`. -/
def getitem {A : Type} (c : DictCache A) (k : Nat) : Option (A × DictCache A) :=
  (lookup? c.entries k).map (fun v => (v, ⟨c.maxsize, moveToEnd c.entries k⟩))

/-- The inherited `OrderedDict.__delitem__`; `none` models the `KeyError`. -/
def delitem {A : Type} (c : DictCache A) (k : Nat) : Option (DictCache A) :=
  if containsKey c.entries k then some ⟨c.maxsize, dictErase c.entries k⟩ else none

/-- The inherited `__len__`. -/
def size {A : Type} (c : DictCache A) : Nat := c.entries.length

end DictCache

/-! ### `LfuDictCache` (src/lfu_dict_cache.py) -/

/-- State of an `LfuDictCache`: `_max_size`, `_values`, `_freq`, and the
sorted `_freq_to_lru` index from count to the `DictCache[K, None]` bucket. -/
structure LfuDictCache (V : Type) where
  max_size : Nat
  values : List (Nat × V)
  freq : List (Nat × Nat)
  freq_to_lru : List (Nat × DictCache Unit)
deriving DecidableEq

namespace LfuDictCache

variable {V : Type}

/-- The constructor `__init__`: `none` models the `ValueError` raised on a
negative capacity. -/
def init (V : Type) (max_size : Int) : Option (LfuDictCache V) :=
  if max_size < 0 then none else some ⟨max_size.toNat, [], [], []⟩

/-- The helper `_clean_freq_bucket`: drop the bucket from the index when it
has become empty.  (In the source the bucket has already been mutated in
place; here the caller passes the written-back index together with the
bucket's new contents.) -/
def clean_freq_bucket (ftl : List (Nat × DictCache Unit)) (lru : DictCache Unit) (f : Nat) :
    List (Nat × DictCache Unit) :=
  if lru.entries.length = 0 then dictErase ftl f else ftl

/-- The helper `_add_key_to_freq`: create the bucket (capacity `_max_size`)
if missing, then `self._freq_to_lru[freq][key] = None`. -/
def add_key_to_freq (max_size : Nat) (ftl : List (Nat × DictCache Unit)) (key f : Nat) :
    List (Nat × DictCache Unit) :=
  let ftl' := if containsKey ftl f then ftl else sortedSet ftl f ⟨max_size, []⟩
  match lookup? ftl' f with
  | some lru => sortedSet ftl' f (lru.setitem key ())
  | none => ftl'

/-- The helper `_remove_key`: read the key's count and bucket, then delete it
from the value map, the count map and the bucket, pruning the bucket if it
became empty.  `none` models a `KeyError` (first raised before any
mutation). -/
def remove_key (c : LfuDictCache V) (key : Nat) : Option (LfuDictCache V) :=
  match lookup? c.freq key with
  | none => none
  | some f =>
    match lookup? c.freq_to_lru f with
    | none => none
    | some lru =>
      if containsKey c.values key then
        match lru.delitem key with
        | none => none
        | some lru' =>
          let ftl := sortedSet c.freq_to_lru f lru'
          some { c with values := dictErase c.values key,
                        freq := dictErase c.freq key,
                        freq_to_lru := clean_freq_bucket ftl lru' f }
      else none

/-- The helper `_increase_freq`: remove the key from its current bucket
(pruning it when emptied), add it to the next-count bucket, and record the
incremented count. -/
def increase_freq (c : LfuDictCache V) (key : Nat) : Option (LfuDictCache V) :=
  match lookup? c.freq key with
  | none => none
  | some old_freq =>
    match lookup? c.freq_to_lru old_freq with
    | none => none
    | some old_lru =>
      match old_lru.delitem key with
      | none => none
      | some old_lru' =>
        let ftl := sortedSet c.freq_to_lru old_freq old_lru'
        let ftl := clean_freq_bucket ftl old_lru' old_freq
        let ftl := add_key_to_freq c.max_size ftl key (old_freq + 1)
        some { c with freq := dictSet c.freq key (old_freq + 1), freq_to_lru := ftl }

/-- The helper `_is_full`. -/
def is_full (c : LfuDictCache V) : Bool := c.values.length ≥ c.max_size

/-- The helper `_evict`: peek the minimum-count bucket, take its oldest key,
and remove it through `_remove_key`. -/
def evict (c : LfuDictCache V) : Option (LfuDictCache V) :=
  match c.freq_to_lru.head? with
  | none => none
  | some (_, lru) =>
    match lru.entries.head? with
    | none => none
    | some (key, _) => remove_key c key

/-- The three statements of `__setitem__`'s new-key branch after the eviction
check: `_set_value`, `self._freq[key] = 1`, `_add_key_to_freq(key, 1)`. -/
def insert_new (c : LfuDictCache V) (key : Nat) (value : V) : LfuDictCache V :=
  { c with values := dictSet c.values key value,
           freq := dictSet c.freq key 1,
           freq_to_lru := add_key_to_freq c.max_size c.freq_to_lru key 1 }

/-- The public `__getitem__`: read the value, then `_increase_freq`.  `none`
models the `KeyError`. -/
def getitem (c : LfuDictCache V) (key : Nat) : Option (V × LfuDictCache V) :=
  match lookup? c.values key with
  | none => none
  | some v => (increase_freq c key).map (fun c' => (v, c'))

/-- The public `__setitem__`.  `none` models an uncaught exception (never
reached from a well-formed state). -/
def setitem (c : LfuDictCache V) (key : Nat) (value : V) : Option (LfuDictCache V) :=
  if c.max_size = 0 then some c
  else if containsKey c.values key then
    increase_freq { c with values := dictSet c.values key value } key
  else
    (if c.is_full then evict c else some c).map (fun c1 => insert_new c1 key value)

/-- The public `__delitem__`, which just forwards to `_remove_key`. -/
def delitem (c : LfuDictCache V) (key : Nat) : Option (LfuDictCache V) :=
  remove_key c key

/-- The key sequence produced by exhausting `__iter__` without interleaved
mutation: the keys of `_values` in insertion order. -/
def iterate (c : LfuDictCache V) : List Nat := c.values.map Prod.fst

/-- The public `__len__`. -/
def size (c : LfuDictCache V) : Nat := c.values.length

/-! Drop-free variants of the operations that insert into a bucket, used to
state that the bucket's silent-drop branch is never executed by the LFU
layer.  They differ from the originals only in using
`DictCache.setitemFree` instead of `DictCache.setitem`. -/

/-- Variant of `add_key_to_freq` whose bucket insertion has no drop branch. -/
def add_key_to_freqFree (max_size : Nat) (ftl : List (Nat × DictCache Unit)) (key f : Nat) :
    List (Nat × DictCache Unit) :=
  let ftl' := if containsKey ftl f then ftl else sortedSet ftl f ⟨max_size, []⟩
  match lookup? ftl' f with
  | some lru => sortedSet ftl' f (lru.setitemFree key ())
  | none => ftl'

/-- Variant of `increase_freq` whose bucket insertion has no drop branch. -/
def increase_freqFree (c : LfuDictCache V) (key : Nat) : Option (LfuDictCache V) :=
  match lookup? c.freq key with
  | none => none
  | some old_freq =>
    match lookup? c.freq_to_lru old_freq with
    | none => none
    | some old_lru =>
      match old_lru.delitem key with
      | none => none
      | some old_lru' =>
        let ftl := sortedSet c.freq_to_lru old_freq old_lru'
        let ftl := clean_freq_bucket ftl old_lru' old_freq
        let ftl := add_key_to_freqFree c.max_size ftl key (old_freq + 1)
        some { c with freq := dictSet c.freq key (old_freq + 1), freq_to_lru := ftl }

/-- Variant of `insert_new` whose bucket insertion has no drop branch. -/
def insert_newFree (c : LfuDictCache V) (key : Nat) (value : V) : LfuDictCache V :=
  { c with values := dictSet c.values key value,
           freq := dictSet c.freq key 1,
           freq_to_lru := add_key_to_freqFree c.max_size c.freq_to_lru key 1 }

/-- Variant of `getitem` whose bucket insertion has no drop branch. -/
def getitemFree (c : LfuDictCache V) (key : Nat) : Option (V × LfuDictCache V) :=
  match lookup? c.values key with
  | none => none
  | some v => (increase_freqFree c key).map (fun c' => (v, c'))

/-- Variant of `setitem` whose bucket insertions have no drop branch. -/
def setitemNoDrop (c : LfuDictCache V) (key : Nat) (value : V) : Option (LfuDictCache V) :=
  if c.max_size = 0 then some c
  else if containsKey c.values key then
    increase_freqFree { c with values := dictSet c.values key value } key
  else
    (if c.is_full then evict c else some c).map (fun c1 => insert_newFree c1 key value)

/-! Structural well-formedness of a cache state. -/

/-- Well-formedness: the structural invariants holding in every reachable
state of an `LfuDictCache`. -/
structure WF (c : LfuDictCache V) : Prop where
  vnd : (c.values.map Prod.fst).Nodup
  fnd : (c.freq.map Prod.fst).Nodup
  srt : (c.freq_to_lru.map Prod.fst).Sorted (· < ·)
  vf : ∀ k, containsKey c.values k = containsKey c.freq k
  fb : ∀ k f, lookup? c.freq k = some f →
    ∃ lru, lookup? c.freq_to_lru f = some lru ∧ containsKey lru.entries k = true
  bf : ∀ f lru k, lookup? c.freq_to_lru f = some lru →
    containsKey lru.entries k = true → lookup? c.freq k = some f
  bnd : ∀ f lru, lookup? c.freq_to_lru f = some lru → (lru.entries.map Prod.fst).Nodup
  bne : ∀ f lru, lookup? c.freq_to_lru f = some lru → lru.entries ≠ []
  bms : ∀ f lru, lookup? c.freq_to_lru f = some lru → lru.maxsize = c.max_size
  card : c.values.length ≤ c.max_size

/-! Model of the iterator object returned by `__iter__`, i.e. of a CPython
dict iterator over `_values`: it is a live view, holding a position and the
size of the dict recorded when the iterator was created. -/

/-- Iterator state: position reached, and `di_used`, the size of `_values`
when the iterator was created. -/
structure ValuesIter where
  pos : Nat
  di_used : Nat
deriving DecidableEq

/-- Calling `__iter__`: a fresh iterator at position 0 on the live dict. -/
def iterInit (c : LfuDictCache V) : ValuesIter := ⟨0, c.values.length⟩

/-- Advancing the iterator with `next`: CPython raises `RuntimeError`
(modelled `Except.error ()`) when the dict changed size since the iterator
was created; otherwise it yields the key at the current position of the live
`_values` dict, or signals exhaustion (`Except.ok none` for
`StopIteration`). -/
def iterNext (c : LfuDictCache V) (it : ValuesIter) : Except Unit (Option (Nat × ValuesIter)) :=
  if c.values.length ≠ it.di_used then Except.error ()
  else
    match (c.values.map Prod.fst)[it.pos]? with
    | none => Except.ok none
    | some k => Except.ok (some (k, ⟨it.pos + 1, it.di_used⟩))

/-- Exhaust an iterator against a fixed (unmutated) cache, with fuel. -/
def iterDrainAux (c : LfuDictCache V) : ValuesIter → Nat → List Nat
  | _, 0 => []
  | it, n + 1 =>
    match iterNext c it with
    | Except.ok (some (k, it')) => k :: iterDrainAux c it' n
    | _ => []

/-- The full key sequence obtained by creating an iterator and exhausting it
without interleaved mutation. -/
def iterDrain (c : LfuDictCache V) : List Nat := iterDrainAux c (iterInit c) c.values.length

end LfuDictCache

/-! ### Operation sequences -/

/-- A public cache operation. -/
inductive Op (V : Type) where
  | get : Nat → Op V
  | set : Nat → V → Op V
  | del : Nat → Op V
deriving DecidableEq

/-- Execute one public operation.  A raised `KeyError` (modelled `none`)
leaves the state unchanged: in the source, `__getitem__` and `__delitem__`
raise before performing any mutation. -/
def step {V : Type} (c : LfuDictCache V) : Op V → LfuDictCache V
  | Op.get k =>
    match c.getitem k with
    | some (_, c') => c'
    | none => c
  | Op.set k v => (c.setitem k v).getD c
  | Op.del k => (c.delitem k).getD c

/-- Execute a sequence of public operations. -/
def run {V : Type} (c : LfuDictCache V) (ops : List (Op V)) : LfuDictCache V :=
  ops.foldl step c

/-- An operation that merely touches a key already present in `c`: a `get`
of a present key, or a value-overwriting `set` on a present key. -/
def touches {V : Type} (c : LfuDictCache V) : Op V → Prop
  | Op.get k => containsKey c.values k = true
  | Op.set k _ => containsKey c.values k = true
  | Op.del _ => False

/-! ## Lemmas about the dict primitives -/

section DictLemmas

variable {A : Type}

theorem containsKey_eq_isSome_lookup? (l : List (Nat × A)) (k : Nat) :
    containsKey l k = (lookup? l k).isSome := by
  induction l with
  | nil => rfl
  | cons p t ih =>
    obtain ⟨k', v⟩ := p
    by_cases h : k' = k <;> simp [containsKey, lookup?, h, ih]

theorem lookup?_eq_none_iff (l : List (Nat × A)) (k : Nat) :
    lookup? l k = none ↔ containsKey l k = false := by
  rw [containsKey_eq_isSome_lookup?]
  cases lookup? l k <;> simp

theorem containsKey_iff_lookup? (l : List (Nat × A)) (k : Nat) :
    containsKey l k = true ↔ ∃ v, lookup? l k = some v := by
  rw [containsKey_eq_isSome_lookup?]
  cases lookup? l k <;> simp

theorem containsKey_iff_mem_map_fst (l : List (Nat × A)) (k : Nat) :
    containsKey l k = true ↔ k ∈ l.map Prod.fst := by
  induction l with
  | nil => simp [containsKey]
  | cons p t ih =>
    obtain ⟨k', v⟩ := p
    simp only [containsKey, Bool.or_eq_true, decide_eq_true_eq, List.map_cons, List.mem_cons, ih]
    constructor
    · rintro (h | h)
      · exact Or.inl h.symm
      · exact Or.inr h
    · rintro (h | h)
      · exact Or.inl h.symm
      · exact Or.inr h

theorem lookup?_dictSet_self (l : List (Nat × A)) (k : Nat) (v : A) :
    lookup? (dictSet l k v) k = some v := by
  induction l with
  | nil => simp [dictSet, lookup?]
  | cons p t ih =>
    obtain ⟨k', v'⟩ := p
    by_cases h : k' = k <;> simp [dictSet, lookup?, h, ih]

theorem lookup?_dictSet_ne (l : List (Nat × A)) {k k' : Nat} (v : A) (h : k' ≠ k) :
    lookup? (dictSet l k v) k' = lookup? l k' := by
  induction l with
  | nil => simp [dictSet, lookup?, Ne.symm h]
  | cons p t ih =>
    obtain ⟨a, b⟩ := p
    by_cases ha : a = k
    · subst ha
      simp [dictSet, lookup?, Ne.symm h]
    · simp [dictSet, lookup?, ha, ih]

theorem containsKey_dictSet_self (l : List (Nat × A)) (k : Nat) (v : A) :
    containsKey (dictSet l k v) k = true := by
  rw [containsKey_eq_isSome_lookup?, lookup?_dictSet_self]
  rfl

theorem containsKey_dictSet_ne (l : List (Nat × A)) {k k' : Nat} (v : A) (h : k' ≠ k) :
    containsKey (dictSet l k v) k' = containsKey l k' := by
  rw [containsKey_eq_isSome_lookup?, containsKey_eq_isSome_lookup?, lookup?_dictSet_ne l v h]

theorem map_fst_dictSet_of_contains (l : List (Nat × A)) {k : Nat} (v : A)
    (h : containsKey l k = true) : (dictSet l k v).map Prod.fst = l.map Prod.fst := by
  induction l with
  | nil => simp [containsKey] at h
  | cons p t ih =>
    obtain ⟨a, b⟩ := p
    by_cases ha : a = k
    · simp [dictSet, ha]
    · simp only [containsKey, Bool.or_eq_true, decide_eq_true_eq] at h
      rcases h with h | h
      · exact absurd h ha
      · simp [dictSet, ha, ih h]

theorem dictSet_of_not_contains (l : List (Nat × A)) {k : Nat} (v : A)
    (h : containsKey l k = false) : dictSet l k v = l ++ [(k, v)] := by
  induction l with
  | nil => rfl
  | cons p t ih =>
    obtain ⟨a, b⟩ := p
    simp only [containsKey, Bool.or_eq_false_iff, decide_eq_false_iff_not] at h
    simp [dictSet, h.1, ih h.2]

theorem length_dictSet_of_contains (l : List (Nat × A)) {k : Nat} (v : A)
    (h : containsKey l k = true) : (dictSet l k v).length = l.length := by
  have := congrArg List.length (map_fst_dictSet_of_contains l v h)
  simpa using this

theorem dictErase_sublist (l : List (Nat × A)) (k : Nat) : (dictErase l k).Sublist l := by
  induction l with
  | nil => simp [dictErase]
  | cons p t ih =>
    obtain ⟨a, b⟩ := p
    by_cases ha : a = k
    · simp only [dictErase, if_pos ha]
      exact List.sublist_cons_self (a, b) t
    · simp only [dictErase, if_neg ha]
      exact List.Sublist.cons₂ _ ih

theorem dictErase_of_not_contains (l : List (Nat × A)) {k : Nat}
    (h : containsKey l k = false) : dictErase l k = l := by
  induction l with
  | nil => rfl
  | cons p t ih =>
    obtain ⟨a, b⟩ := p
    simp only [containsKey, Bool.or_eq_false_iff, decide_eq_false_iff_not] at h
    simp [dictErase, h.1, ih h.2]

theorem lookup?_dictErase_ne (l : List (Nat × A)) {k k' : Nat} (h : k' ≠ k) :
    lookup? (dictErase l k) k' = lookup? l k' := by
  induction l with
  | nil => rfl
  | cons p t ih =>
    obtain ⟨a, b⟩ := p
    by_cases ha : a = k
    · subst ha
      simp [dictErase, lookup?, Ne.symm h]
    · simp [dictErase, lookup?, ha, ih]

theorem containsKey_dictErase_ne (l : List (Nat × A)) {k k' : Nat} (h : k' ≠ k) :
    containsKey (dictErase l k) k' = containsKey l k' := by
  rw [containsKey_eq_isSome_lookup?, containsKey_eq_isSome_lookup?, lookup?_dictErase_ne l h]

theorem map_fst_dictErase (l : List (Nat × A)) (k : Nat) :
    (dictErase l k).map Prod.fst = (l.map Prod.fst).erase k := by
  induction l with
  | nil => rfl
  | cons p t ih =>
    obtain ⟨a, b⟩ := p
    by_cases ha : a = k <;> simp [dictErase, List.erase_cons, ha, ih]

theorem nodup_map_fst_dictErase (l : List (Nat × A)) (k : Nat)
    (h : (l.map Prod.fst).Nodup) : ((dictErase l k).map Prod.fst).Nodup := by
  rw [map_fst_dictErase]
  exact h.erase k

theorem containsKey_dictErase_self (l : List (Nat × A)) (k : Nat)
    (h : (l.map Prod.fst).Nodup) : containsKey (dictErase l k) k = false := by
  rw [← Bool.not_eq_true, containsKey_iff_mem_map_fst, map_fst_dictErase]
  exact h.not_mem_erase

theorem lookup?_dictErase_self (l : List (Nat × A)) (k : Nat)
    (h : (l.map Prod.fst).Nodup) : lookup? (dictErase l k) k = none := by
  rw [lookup?_eq_none_iff]
  exact containsKey_dictErase_self l k h

theorem length_dictErase_of_contains (l : List (Nat × A)) {k : Nat}
    (h : containsKey l k = true) : (dictErase l k).length + 1 = l.length := by
  induction l with
  | nil => simp [containsKey] at h
  | cons p t ih =>
    obtain ⟨a, b⟩ := p
    by_cases ha : a = k
    · simp [dictErase, ha]
    · simp only [containsKey, Bool.or_eq_true, decide_eq_true_eq] at h
      rcases h with h | h
      · exact absurd h ha
      · simp [dictErase, ha, ih h]

theorem lookup?_append_right (l₁ l₂ : List (Nat × A)) {k : Nat}
    (h : containsKey l₁ k = false) : lookup? (l₁ ++ l₂) k = lookup? l₂ k := by
  induction l₁ with
  | nil => rfl
  | cons p t ih =>
    obtain ⟨a, b⟩ := p
    simp only [containsKey, Bool.or_eq_false_iff, decide_eq_false_iff_not] at h
    simp [lookup?, h.1, ih h.2]

theorem dictErase_append_right (l₁ l₂ : List (Nat × A)) {k : Nat}
    (h : containsKey l₁ k = false) : dictErase (l₁ ++ l₂) k = l₁ ++ dictErase l₂ k := by
  induction l₁ with
  | nil => rfl
  | cons p t ih =>
    obtain ⟨a, b⟩ := p
    simp only [containsKey, Bool.or_eq_false_iff, decide_eq_false_iff_not] at h
    simp [dictErase, h.1, ih h.2]

theorem lookup?_sortedSet_self (l : List (Nat × A)) (k : Nat) (v : A) :
    lookup? (sortedSet l k v) k = some v := by
  induction l with
  | nil => simp [sortedSet, lookup?]
  | cons p t ih =>
    obtain ⟨a, b⟩ := p
    by_cases hlt : k < a
    · simp [sortedSet, lookup?, hlt]
    · by_cases ha : a = k
      · simp [sortedSet, lookup?, hlt, ha]
      · simp [sortedSet, lookup?, hlt, ha, ih]

theorem lookup?_sortedSet_ne (l : List (Nat × A)) {k k' : Nat} (v : A) (h : k' ≠ k) :
    lookup? (sortedSet l k v) k' = lookup? l k' := by
  induction l with
  | nil => simp [sortedSet, lookup?, Ne.symm h]
  | cons p t ih =>
    obtain ⟨a, b⟩ := p
    by_cases hlt : k < a
    · simp [sortedSet, lookup?, hlt, Ne.symm h]
    · by_cases ha : a = k
      · subst ha
        simp [sortedSet, lookup?, hlt, Ne.symm h]
      · simp [sortedSet, lookup?, hlt, ha, ih]

theorem containsKey_sortedSet_self (l : List (Nat × A)) (k : Nat) (v : A) :
    containsKey (sortedSet l k v) k = true := by
  rw [containsKey_eq_isSome_lookup?, lookup?_sortedSet_self]
  rfl

theorem containsKey_sortedSet_ne (l : List (Nat × A)) {k k' : Nat} (v : A) (h : k' ≠ k) :
    containsKey (sortedSet l k v) k' = containsKey l k' := by
  rw [containsKey_eq_isSome_lookup?, containsKey_eq_isSome_lookup?, lookup?_sortedSet_ne l v h]

theorem mem_map_fst_sortedSet (l : List (Nat × A)) (k : Nat) (v : A) (x : Nat) :
    x ∈ (sortedSet l k v).map Prod.fst ↔ x = k ∨ x ∈ l.map Prod.fst := by
  induction l with
  | nil => simp [sortedSet]
  | cons p t ih =>
    obtain ⟨a, b⟩ := p
    by_cases hlt : k < a
    · simp [sortedSet, hlt]
    · by_cases ha : a = k
      · subst ha
        simp [sortedSet, hlt, or_assoc]
      · simp only [sortedSet, if_neg hlt, if_neg ha, List.map_cons, List.mem_cons, ih]
        tauto

theorem sorted_map_fst_sortedSet (l : List (Nat × A)) (k : Nat) (v : A)
    (h : (l.map Prod.fst).Sorted (· < ·)) :
    ((sortedSet l k v).map Prod.fst).Sorted (· < ·) := by
  induction l with
  | nil => simp [sortedSet]
  | cons p t ih =>
    obtain ⟨a, b⟩ := p
    simp only [List.map_cons, List.sorted_cons] at h
    by_cases hlt : k < a
    · simp only [sortedSet, if_pos hlt, List.map_cons, List.sorted_cons]
      refine ⟨?_, h⟩
      intro x hx
      rcases List.mem_cons.mp hx with hx | hx
      · omega
      · exact lt_trans hlt (h.1 x hx)
    · by_cases ha : a = k
      · subst ha
        have hss : sortedSet ((a, b) :: t) a v = (a, v) :: t := by
          simp [sortedSet, hlt]
        rw [hss, List.map_cons, List.sorted_cons]
        exact h
      · simp only [sortedSet, if_neg hlt, if_neg ha, List.map_cons, List.sorted_cons]
        refine ⟨?_, ih h.2⟩
        intro x hx
        rcases (mem_map_fst_sortedSet t k v x).mp hx with hx | hx
        · omega
        · exact h.1 x hx

theorem nodup_length_le_of_subset {l₁ l₂ : List Nat} (d : l₁.Nodup) (s : l₁ ⊆ l₂) :
    l₁.length ≤ l₂.length :=
  (d.subperm s).length_le

end DictLemmas

/-! ## Lemmas about `DictCache` -/

namespace DictCache

variable {A : Type}

theorem setitemFree_of_not_contains (c : DictCache A) {k : Nat} (v : A)
    (h : containsKey c.entries k = false) :
    c.setitemFree k v = ⟨c.maxsize, c.entries ++ [(k, v)]⟩ := by
  have hset : dictSet c.entries k v = c.entries ++ [(k, v)] :=
    dictSet_of_not_contains c.entries v h
  have hlook : lookup? (c.entries ++ [(k, v)]) k = some v := by
    rw [lookup?_append_right c.entries _ h]
    simp [lookup?]
  have herase : dictErase (c.entries ++ [(k, v)]) k = c.entries := by
    rw [dictErase_append_right c.entries _ h]
    simp [dictErase]
  simp [setitemFree, moveToEnd, hset, hlook, herase]

theorem setitem_of_not_contains (c : DictCache A) {k : Nat} (v : A)
    (h : containsKey c.entries k = false) (hlen : c.entries.length < c.maxsize) :
    c.setitem k v = ⟨c.maxsize, c.entries ++ [(k, v)]⟩ := by
  have hfree := setitemFree_of_not_contains c v h
  simp only [setitemFree] at hfree
  have hlen' : ¬((moveToEnd (dictSet c.entries k v) k).length > c.maxsize) := by
    have : moveToEnd (dictSet c.entries k v) k = c.entries ++ [(k, v)] :=
      congrArg DictCache.entries hfree
    rw [this]
    simp only [List.length_append, List.length_singleton]
    omega
  simp only [setitem, if_neg hlen']
  exact hfree

theorem setitem_eq_setitemFree (c : DictCache A) {k : Nat} (v : A)
    (h : containsKey c.entries k = false) (hlen : c.entries.length < c.maxsize) :
    c.setitem k v = c.setitemFree k v := by
  rw [setitem_of_not_contains c v h hlen, setitemFree_of_not_contains c v h]

theorem delitem_of_contains (c : DictCache A) {k : Nat}
    (h : containsKey c.entries k = true) :
    c.delitem k = some ⟨c.maxsize, dictErase c.entries k⟩ := by
  simp [delitem, h]

end DictCache

/-! ## Lemmas about the frequency index updates -/

section FreqIndex

theorem contains_of_lookup?_some {A : Type} {l : List (Nat × A)} {k : Nat} {v : A}
    (h : lookup? l k = some v) : containsKey l k = true :=
  (containsKey_iff_lookup? l k).mpr ⟨v, h⟩

theorem length_ne_zero_of_contains {A : Type} {l : List (Nat × A)} {k : Nat}
    (h : containsKey l k = true) : l.length ≠ 0 := by
  intro h0
  rw [List.length_eq_zero.mp h0] at h
  simp [containsKey] at h

theorem containsKey_append {A : Type} (l₁ l₂ : List (Nat × A)) (k : Nat) :
    containsKey (l₁ ++ l₂) k = (containsKey l₁ k || containsKey l₂ k) := by
  induction l₁ with
  | nil => simp [containsKey]
  | cons p t ih =>
    obtain ⟨a, b⟩ := p
    simp [containsKey, ih, Bool.or_assoc]

theorem containsKey_append_single_self {A : Type} (l : List (Nat × A)) (k : Nat) (v : A) :
    containsKey (l ++ [(k, v)]) k = true := by
  rw [containsKey_append]
  simp [containsKey]

theorem containsKey_append_single_ne {A : Type} (l : List (Nat × A)) {k k' : Nat} (v : A)
    (h : k' ≠ k) : containsKey (l ++ [(k, v)]) k' = containsKey l k' := by
  rw [containsKey_append]
  simp [containsKey, Ne.symm h]

theorem nodup_map_fst_append_single {A : Type} {l : List (Nat × A)} {k : Nat} (v : A)
    (hnd : (l.map Prod.fst).Nodup) (hnk : containsKey l k = false) :
    ((l ++ [(k, v)]).map Prod.fst).Nodup := by
  rw [List.map_append]
  apply List.Nodup.append hnd (by simp)
  intro x hx hx2
  simp only [List.map_cons, List.map_nil, List.mem_singleton] at hx2
  subst hx2
  rw [← containsKey_iff_mem_map_fst] at hx
  rw [hx] at hnk
  exact Bool.noConfusion hnk

/-- Effect, on index lookups, of writing the mutated bucket back at count `f`
and pruning it when it became empty. -/
theorem clean_writeback_results (ftl : List (Nat × DictCache Unit)) (f : Nat)
    (lru' : DictCache Unit) (hsrt : (ftl.map Prod.fst).Sorted (· < ·)) :
    (lookup? (LfuDictCache.clean_freq_bucket (sortedSet ftl f lru') lru' f) f
        = if lru'.entries.length = 0 then none else some lru')
    ∧ (∀ g, g ≠ f →
        lookup? (LfuDictCache.clean_freq_bucket (sortedSet ftl f lru') lru' f) g
          = lookup? ftl g)
    ∧ ((LfuDictCache.clean_freq_bucket (sortedSet ftl f lru') lru' f).map Prod.fst).Sorted
        (· < ·) := by
  have hsrt' : ((sortedSet ftl f lru').map Prod.fst).Sorted (· < ·) :=
    sorted_map_fst_sortedSet ftl f lru' hsrt
  by_cases h : lru'.entries.length = 0
  · refine ⟨?_, ?_, ?_⟩
    · simp only [LfuDictCache.clean_freq_bucket, if_pos h]
      exact lookup?_dictErase_self _ f hsrt'.nodup
    · intro g hg
      simp only [LfuDictCache.clean_freq_bucket, if_pos h]
      rw [lookup?_dictErase_ne _ hg, lookup?_sortedSet_ne _ _ hg]
    · simp only [LfuDictCache.clean_freq_bucket, if_pos h]
      rw [map_fst_dictErase]
      exact hsrt'.sublist (List.erase_sublist f _)
  · refine ⟨?_, ?_, ?_⟩
    · simp only [LfuDictCache.clean_freq_bucket, if_neg h]
      rw [lookup?_sortedSet_self]
    · intro g hg
      simp only [LfuDictCache.clean_freq_bucket, if_neg h]
      exact lookup?_sortedSet_ne _ _ hg
    · simpa only [LfuDictCache.clean_freq_bucket, if_neg h] using hsrt'

/-- Effect of `_add_key_to_freq` on the index, provided the target bucket is
strictly below its capacity and does not already hold the key.  `base` is the
bucket at count `f` before the call (or a fresh empty one). -/
theorem add_key_results (ms : Nat) (ftl : List (Nat × DictCache Unit)) (key f : Nat)
    (base : DictCache Unit) (hbase : (lookup? ftl f).getD ⟨ms, []⟩ = base)
    (hnk : containsKey base.entries key = false)
    (hlt : base.entries.length < ms) (hbms : base.maxsize = ms)
    (hsrt : (ftl.map Prod.fst).Sorted (· < ·)) :
    (lookup? (LfuDictCache.add_key_to_freq ms ftl key f) f
        = some ⟨ms, base.entries ++ [(key, ())]⟩)
    ∧ (∀ g, g ≠ f →
        lookup? (LfuDictCache.add_key_to_freq ms ftl key f) g = lookup? ftl g)
    ∧ ((LfuDictCache.add_key_to_freq ms ftl key f).map Prod.fst).Sorted (· < ·) := by
  by_cases hc : containsKey ftl f = true
  · obtain ⟨b, hb⟩ := (containsKey_iff_lookup? ftl f).mp hc
    have hbb : b = base := by rw [hb] at hbase; exact hbase
    subst hbb
    have hset : b.setitem key () = ⟨b.maxsize, b.entries ++ [(key, ())]⟩ :=
      DictCache.setitem_of_not_contains b () hnk (by omega)
    have hres : LfuDictCache.add_key_to_freq ms ftl key f
        = sortedSet ftl f ⟨ms, b.entries ++ [(key, ())]⟩ := by
      simp only [LfuDictCache.add_key_to_freq, hc, if_true, hb, hset, hbms]
    refine ⟨?_, ?_, ?_⟩
    · rw [hres, lookup?_sortedSet_self]
    · intro g hg
      rw [hres, lookup?_sortedSet_ne _ _ hg]
    · rw [hres]
      exact sorted_map_fst_sortedSet ftl f _ hsrt
  · have hb : lookup? ftl f = none := (lookup?_eq_none_iff ftl f).mpr (by
      cases h : containsKey ftl f
      · rfl
      · exact absurd h hc)
    have hbb : base = (⟨ms, []⟩ : DictCache Unit) := by rw [hb] at hbase; exact hbase.symm
    subst hbb
    have hset : (⟨ms, []⟩ : DictCache Unit).setitem key () = ⟨ms, [(key, ())]⟩ :=
      DictCache.setitem_of_not_contains ⟨ms, []⟩ () (by simp [containsKey]) (by simpa using hlt)
    have hres : LfuDictCache.add_key_to_freq ms ftl key f
        = sortedSet (sortedSet ftl f ⟨ms, []⟩) f ⟨ms, [(key, ())]⟩ := by
      simp only [LfuDictCache.add_key_to_freq, hc, if_false, Bool.false_eq_true,
        lookup?_sortedSet_self, hset]
    have hsrt1 : ((sortedSet ftl f ⟨ms, []⟩).map Prod.fst).Sorted (· < ·) :=
      sorted_map_fst_sortedSet ftl f _ hsrt
    refine ⟨?_, ?_, ?_⟩
    · rw [hres, lookup?_sortedSet_self]
      rfl
    · intro g hg
      rw [hres, lookup?_sortedSet_ne _ _ hg, lookup?_sortedSet_ne _ _ hg]
    · rw [hres]
      exact sorted_map_fst_sortedSet _ f _ hsrt1

/-- Under the same capacity conditions, `_add_key_to_freq` never takes the
silent-drop branch: it agrees with its drop-free variant. -/
theorem add_key_eq_free (ms : Nat) (ftl : List (Nat × DictCache Unit)) (key f : Nat)
    (base : DictCache Unit) (hbase : (lookup? ftl f).getD ⟨ms, []⟩ = base)
    (hnk : containsKey base.entries key = false)
    (hlt : base.entries.length < ms) (hbms : base.maxsize = ms) :
    LfuDictCache.add_key_to_freq ms ftl key f
      = LfuDictCache.add_key_to_freqFree ms ftl key f := by
  by_cases hc : containsKey ftl f = true
  · obtain ⟨b, hb⟩ := (containsKey_iff_lookup? ftl f).mp hc
    have hbb : b = base := by rw [hb] at hbase; exact hbase
    subst hbb
    have hset : b.setitem key () = b.setitemFree key () :=
      DictCache.setitem_eq_setitemFree b () hnk (by omega)
    simp only [LfuDictCache.add_key_to_freq, LfuDictCache.add_key_to_freqFree, hc, if_true,
      hb, hset]
  · have hb : lookup? ftl f = none := (lookup?_eq_none_iff ftl f).mpr (by
      cases h : containsKey ftl f
      · rfl
      · exact absurd h hc)
    have hbb : base = (⟨ms, []⟩ : DictCache Unit) := by rw [hb] at hbase; exact hbase.symm
    have hset : (⟨ms, []⟩ : DictCache Unit).setitem key ()
        = (⟨ms, []⟩ : DictCache Unit).setitemFree key () :=
      DictCache.setitem_eq_setitemFree ⟨ms, []⟩ () (by simp [containsKey])
        (by rw [hbb] at hlt; simpa using hlt)
    simp only [LfuDictCache.add_key_to_freq, LfuDictCache.add_key_to_freqFree, hc, if_false,
      Bool.false_eq_true, lookup?_sortedSet_self, hset]

end FreqIndex

/-! ## Specification lemmas for the cache helpers -/

namespace LfuDictCache

variable {V : Type}

theorem max_size_pos {c : LfuDictCache V} (hwf : WF c) {key : Nat}
    (hkey : containsKey c.values key = true) : 0 < c.max_size := by
  have hmem : key ∈ c.values.map Prod.fst := (containsKey_iff_mem_map_fst _ _).mp hkey
  have h1 : 0 < (c.values.map Prod.fst).length := List.length_pos.mpr (by
    intro e
    rw [e] at hmem
    exact absurd hmem (List.not_mem_nil key))
  have h2 := hwf.card
  simp only [List.length_map] at h1
  omega

/-- Any bucket not containing a key that is stored in the cache has strictly
fewer entries than the cache capacity. -/
theorem bucket_length_lt {c : LfuDictCache V} (hwf : WF c) {key g : Nat}
    {b : DictCache Unit} (hkey : containsKey c.values key = true)
    (hb : lookup? c.freq_to_lru g = some b)
    (hnk : containsKey b.entries key = false) : b.entries.length < c.max_size := by
  have hnd : (key :: b.entries.map Prod.fst).Nodup := by
    rw [List.nodup_cons]
    refine ⟨?_, hwf.bnd g b hb⟩
    intro hmem
    rw [← containsKey_iff_mem_map_fst] at hmem
    rw [hmem] at hnk
    exact Bool.noConfusion hnk
  have hsub : ∀ x ∈ key :: b.entries.map Prod.fst, x ∈ c.values.map Prod.fst := by
    intro x hx
    rcases List.mem_cons.mp hx with hx | hx
    · subst hx
      exact (containsKey_iff_mem_map_fst _ _).mp hkey
    · rw [← containsKey_iff_mem_map_fst] at hx
      have hfx := hwf.bf g b x hb hx
      have hcx : containsKey c.freq x = true := contains_of_lookup?_some hfx
      rw [← hwf.vf] at hcx
      exact (containsKey_iff_mem_map_fst _ _).mp hcx
  have hle := nodup_length_le_of_subset hnd hsub
  have hcard := hwf.card
  simp only [List.length_cons, List.length_map] at hle
  omega

/-- Every bucket has at most as many entries as the cache holds keys. -/
theorem bucket_length_le {c : LfuDictCache V} (hwf : WF c) {g : Nat} {b : DictCache Unit}
    (hb : lookup? c.freq_to_lru g = some b) : b.entries.length ≤ c.values.length := by
  have hsub : ∀ x ∈ b.entries.map Prod.fst, x ∈ c.values.map Prod.fst := by
    intro x hx
    rw [← containsKey_iff_mem_map_fst] at hx
    have hfx := hwf.bf g b x hb hx
    have hcx : containsKey c.freq x = true := contains_of_lookup?_some hfx
    rw [← hwf.vf] at hcx
    exact (containsKey_iff_mem_map_fst _ _).mp hcx
  have hle := nodup_length_le_of_subset (hwf.bnd g b hb) hsub
  simpa using hle

/-- Full description of a successful `_remove_key`: the resulting state, and
preservation of well-formedness. -/
theorem remove_key_spec {c : LfuDictCache V} {key f : Nat} (hwf : WF c)
    (hf : lookup? c.freq key = some f) :
    ∃ lru, lookup? c.freq_to_lru f = some lru ∧ containsKey lru.entries key = true ∧
      remove_key c key = some
        { c with values := dictErase c.values key,
                 freq := dictErase c.freq key,
                 freq_to_lru :=
                   clean_freq_bucket
                     (sortedSet c.freq_to_lru f ⟨lru.maxsize, dictErase lru.entries key⟩)
                     ⟨lru.maxsize, dictErase lru.entries key⟩ f } ∧
      WF { c with values := dictErase c.values key,
                  freq := dictErase c.freq key,
                  freq_to_lru :=
                    clean_freq_bucket
                      (sortedSet c.freq_to_lru f ⟨lru.maxsize, dictErase lru.entries key⟩)
                      ⟨lru.maxsize, dictErase lru.entries key⟩ f } := by
  have hcf : containsKey c.freq key = true := contains_of_lookup?_some hf
  have hcv : containsKey c.values key = true := by rw [hwf.vf]; exact hcf
  obtain ⟨lru, hl, hk⟩ := hwf.fb key f hf
  have hdel : lru.delitem key = some ⟨lru.maxsize, dictErase lru.entries key⟩ :=
    DictCache.delitem_of_contains lru hk
  obtain ⟨hc1, hc2, hc3⟩ :=
    clean_writeback_results c.freq_to_lru f ⟨lru.maxsize, dictErase lru.entries key⟩ hwf.srt
  have hat_f : ∀ lru'',
      lookup? (clean_freq_bucket
          (sortedSet c.freq_to_lru f ⟨lru.maxsize, dictErase lru.entries key⟩)
          ⟨lru.maxsize, dictErase lru.entries key⟩ f) f = some lru'' →
      lru'' = ⟨lru.maxsize, dictErase lru.entries key⟩ ∧
        (dictErase lru.entries key).length ≠ 0 := by
    intro lru'' h
    rw [hc1] at h
    by_cases hlen : (dictErase lru.entries key).length = 0
    · rw [if_pos hlen] at h
      exact Option.noConfusion h
    · rw [if_neg hlen] at h
      exact ⟨(Option.some.injEq _ _ ▸ h).symm, hlen⟩
  refine ⟨lru, hl, hk, ?_, ?_⟩
  · simp only [remove_key, hf, hl, hcv, if_true, hdel]
  · constructor
    · exact nodup_map_fst_dictErase _ _ hwf.vnd
    · exact nodup_map_fst_dictErase _ _ hwf.fnd
    · exact hc3
    · intro k
      by_cases hk' : k = key
      · subst hk'
        rw [containsKey_dictErase_self _ _ hwf.vnd, containsKey_dictErase_self _ _ hwf.fnd]
      · show containsKey (dictErase c.values key) k = containsKey (dictErase c.freq key) k
        rw [containsKey_dictErase_ne _ hk', containsKey_dictErase_ne _ hk', hwf.vf]
    · intro k f' hkf'
      have hk' : k ≠ key := by
        intro e
        subst e
        rw [lookup?_dictErase_self _ _ hwf.fnd] at hkf'
        exact Option.noConfusion hkf'
      have hold : lookup? c.freq k = some f' := by
        rwa [lookup?_dictErase_ne _ hk'] at hkf'
      obtain ⟨b₀, hb₀, hkb₀⟩ := hwf.fb k f' hold
      by_cases hf' : f' = f
      · subst hf'
        have hbeq : b₀ = lru := by
          rw [hl] at hb₀
          exact (Option.some.injEq _ _ ▸ hb₀.symm)
        subst hbeq
        have hk2 : containsKey (dictErase b₀.entries key) k = true := by
          rw [containsKey_dictErase_ne _ hk']
          exact hkb₀
        refine ⟨⟨b₀.maxsize, dictErase b₀.entries key⟩, ?_, hk2⟩
        rw [hc1, if_neg (length_ne_zero_of_contains hk2)]
      · refine ⟨b₀, ?_, hkb₀⟩
        rw [hc2 f' hf']
        exact hb₀
    · intro g lru'' k hg hkg
      by_cases hgf : g = f
      · subst hgf
        obtain ⟨hlru'', hlen⟩ := hat_f lru'' hg
        subst hlru''
        have hkne : k ≠ key := by
          intro e
          subst e
          rw [containsKey_dictErase_self _ _ (hwf.bnd g lru hl)] at hkg
          exact Bool.noConfusion hkg
        have hklru : containsKey lru.entries k = true := by
          rwa [containsKey_dictErase_ne _ hkne] at hkg
        have hfr := hwf.bf g lru k hl hklru
        rw [lookup?_dictErase_ne _ hkne]
        exact hfr
      · rw [hc2 g hgf] at hg
        have hfr := hwf.bf g lru'' k hg hkg
        have hkne : k ≠ key := by
          intro e
          subst e
          rw [hf] at hfr
          exact hgf (Option.some.injEq _ _ ▸ hfr.symm)
        rw [lookup?_dictErase_ne _ hkne]
        exact hfr
    · intro g lru'' hg
      by_cases hgf : g = f
      · subst hgf
        obtain ⟨hlru'', _⟩ := hat_f lru'' hg
        subst hlru''
        exact nodup_map_fst_dictErase _ _ (hwf.bnd g lru hl)
      · rw [hc2 g hgf] at hg
        exact hwf.bnd g lru'' hg
    · intro g lru'' hg
      by_cases hgf : g = f
      · subst hgf
        obtain ⟨hlru'', hlen⟩ := hat_f lru'' hg
        subst hlru''
        intro e
        apply hlen
        have he : dictErase lru.entries key = [] := e
        rw [he]
        rfl
      · rw [hc2 g hgf] at hg
        exact hwf.bne g lru'' hg
    · intro g lru'' hg
      by_cases hgf : g = f
      · subst hgf
        obtain ⟨hlru'', _⟩ := hat_f lru'' hg
        subst hlru''
        exact hwf.bms g lru hl
      · rw [hc2 g hgf] at hg
        exact hwf.bms g lru'' hg
    · exact le_trans (dictErase_sublist c.values key).length_le hwf.card

/-- Full description of a successful `_increase_freq`: the key's count
becomes `f + 1`, the value map is untouched, and well-formedness is
preserved. -/
theorem increase_freq_spec {c : LfuDictCache V} {key f : Nat} (hwf : WF c)
    (hf : lookup? c.freq key = some f) :
    ∃ c', increase_freq c key = some c' ∧
      c'.max_size = c.max_size ∧
      c'.values = c.values ∧
      c'.freq = dictSet c.freq key (f + 1) ∧
      WF c' ∧
      increase_freq c key = increase_freqFree c key := by
  have hcf : containsKey c.freq key = true := contains_of_lookup?_some hf
  have hcv : containsKey c.values key = true := by rw [hwf.vf]; exact hcf
  obtain ⟨lru, hl, hk⟩ := hwf.fb key f hf
  have hdel : lru.delitem key = some ⟨lru.maxsize, dictErase lru.entries key⟩ :=
    DictCache.delitem_of_contains lru hk
  obtain ⟨hc1, hc2, hc3⟩ :=
    clean_writeback_results c.freq_to_lru f ⟨lru.maxsize, dictErase lru.entries key⟩ hwf.srt
  obtain ⟨base, hbase, hnk, hlt, hbms, hbfreq, hbnodup⟩ :
      ∃ base, (lookup? c.freq_to_lru (f + 1)).getD ⟨c.max_size, []⟩ = base ∧
        containsKey base.entries key = false ∧
        base.entries.length < c.max_size ∧
        base.maxsize = c.max_size ∧
        (∀ k, containsKey base.entries k = true → lookup? c.freq k = some (f + 1)) ∧
        (base.entries.map Prod.fst).Nodup := by
    cases hb1 : lookup? c.freq_to_lru (f + 1) with
    | none =>
      refine ⟨⟨c.max_size, []⟩, rfl, rfl, ?_, rfl, ?_, ?_⟩
      · simpa using max_size_pos hwf hcv
      · intro k hk2
        simp [containsKey] at hk2
      · simp
    | some b₁ =>
      have hnk1 : containsKey b₁.entries key = false := by
        cases hck : containsKey b₁.entries key
        · rfl
        · have h2 := hwf.bf (f + 1) b₁ key hb1 hck
          have h3 : f = f + 1 := Option.some.inj (hf.symm.trans h2)
          omega
      exact ⟨b₁, rfl, hnk1, bucket_length_lt hwf hcv hb1 hnk1, hwf.bms _ _ hb1,
        fun k hk2 => hwf.bf (f + 1) b₁ k hb1 hk2, hwf.bnd _ _ hb1⟩
  have hne1 : f + 1 ≠ f := by omega
  have hne2 : f ≠ f + 1 := by omega
  have hbase1 : (lookup? (clean_freq_bucket
      (sortedSet c.freq_to_lru f ⟨lru.maxsize, dictErase lru.entries key⟩)
      ⟨lru.maxsize, dictErase lru.entries key⟩ f) (f + 1)).getD ⟨c.max_size, []⟩ = base := by
    rw [hc2 (f + 1) hne1]
    exact hbase
  obtain ⟨ha1, ha2, ha3⟩ := add_key_results c.max_size
    (clean_freq_bucket (sortedSet c.freq_to_lru f ⟨lru.maxsize, dictErase lru.entries key⟩)
      ⟨lru.maxsize, dictErase lru.entries key⟩ f)
    key (f + 1) base hbase1 hnk (by omega) (by omega) hc3
  have heqfree := add_key_eq_free c.max_size
    (clean_freq_bucket (sortedSet c.freq_to_lru f ⟨lru.maxsize, dictErase lru.entries key⟩)
      ⟨lru.maxsize, dictErase lru.entries key⟩ f)
    key (f + 1) base hbase1 hnk (by omega) (by omega)
  have hd1 : lookup? (add_key_to_freq c.max_size
      (clean_freq_bucket (sortedSet c.freq_to_lru f ⟨lru.maxsize, dictErase lru.entries key⟩)
        ⟨lru.maxsize, dictErase lru.entries key⟩ f) key (f + 1)) f
      = if (dictErase lru.entries key).length = 0 then none
        else some ⟨lru.maxsize, dictErase lru.entries key⟩ := by
    rw [ha2 f hne2]
    exact hc1
  have hd2 : ∀ g, g ≠ f → g ≠ f + 1 →
      lookup? (add_key_to_freq c.max_size
        (clean_freq_bucket (sortedSet c.freq_to_lru f ⟨lru.maxsize, dictErase lru.entries key⟩)
          ⟨lru.maxsize, dictErase lru.entries key⟩ f) key (f + 1)) g
        = lookup? c.freq_to_lru g := by
    intro g hgf hgf1
    rw [ha2 g hgf1]
    exact hc2 g hgf
  have hat_f : ∀ lru'',
      lookup? (add_key_to_freq c.max_size
        (clean_freq_bucket (sortedSet c.freq_to_lru f ⟨lru.maxsize, dictErase lru.entries key⟩)
          ⟨lru.maxsize, dictErase lru.entries key⟩ f) key (f + 1)) f = some lru'' →
      lru'' = ⟨lru.maxsize, dictErase lru.entries key⟩ ∧
        (dictErase lru.entries key).length ≠ 0 := by
    intro lru'' h
    rw [hd1] at h
    by_cases hlen : (dictErase lru.entries key).length = 0
    · rw [if_pos hlen] at h
      exact Option.noConfusion h
    · rw [if_neg hlen] at h
      exact ⟨(Option.some.inj h).symm, hlen⟩
  refine ⟨{ c with
            freq := dictSet c.freq key (f + 1)
            freq_to_lru := add_key_to_freq c.max_size
              (clean_freq_bucket
                (sortedSet c.freq_to_lru f ⟨lru.maxsize, dictErase lru.entries key⟩)
                ⟨lru.maxsize, dictErase lru.entries key⟩ f) key (f + 1) },
      ?_, rfl, rfl, rfl, ?_,
      by simp only [increase_freq, increase_freqFree, hf, hl, hdel, heqfree]⟩
  · simp only [increase_freq, hf, hl, hdel]
  · constructor
    · exact hwf.vnd
    · show ((dictSet c.freq key (f + 1)).map Prod.fst).Nodup
      rw [map_fst_dictSet_of_contains _ _ hcf]
      exact hwf.fnd
    · exact ha3
    · intro k
      by_cases hk' : k = key
      · subst hk'
        show containsKey c.values k = containsKey (dictSet c.freq k (f + 1)) k
        rw [hcv, containsKey_dictSet_self]
      · show containsKey c.values k = containsKey (dictSet c.freq key (f + 1)) k
        rw [containsKey_dictSet_ne _ _ hk', hwf.vf]
    · intro k f' hkf'
      by_cases hk' : k = key
      · subst hk'
        rw [lookup?_dictSet_self] at hkf'
        have hf'eq : f' = f + 1 := (Option.some.inj hkf').symm
        subst hf'eq
        refine ⟨⟨c.max_size, base.entries ++ [(k, ())]⟩, ha1, ?_⟩
        exact containsKey_append_single_self base.entries k ()
      · rw [lookup?_dictSet_ne _ _ hk'] at hkf'
        obtain ⟨b₀, hb₀, hkb₀⟩ := hwf.fb k f' hkf'
        by_cases hf'1 : f' = f + 1
        · subst hf'1
          have hb₀base : b₀ = base := by
            rw [hb₀] at hbase
            exact hbase
          subst hb₀base
          refine ⟨⟨c.max_size, b₀.entries ++ [(key, ())]⟩, ha1, ?_⟩
          rw [containsKey_append_single_ne _ _ hk']
          exact hkb₀
        · by_cases hf'f : f' = f
          · subst hf'f
            have hbeq : b₀ = lru := by
              rw [hl] at hb₀
              exact (Option.some.inj hb₀).symm
            subst hbeq
            have hk2 : containsKey (dictErase b₀.entries key) k = true := by
              rw [containsKey_dictErase_ne _ hk']
              exact hkb₀
            refine ⟨⟨b₀.maxsize, dictErase b₀.entries key⟩, ?_, hk2⟩
            rw [hd1, if_neg (length_ne_zero_of_contains hk2)]
          · refine ⟨b₀, ?_, hkb₀⟩
            rw [hd2 f' hf'f hf'1]
            exact hb₀
    · intro g lru'' k hg hkg
      by_cases hg1 : g = f + 1
      · subst hg1
        rw [ha1] at hg
        have hlru'' : lru'' = ⟨c.max_size, base.entries ++ [(key, ())]⟩ :=
          (Option.some.inj hg).symm
        subst hlru''
        by_cases hk' : k = key
        · subst hk'
          rw [lookup?_dictSet_self]
        · show lookup? (dictSet c.freq key (f + 1)) k = some (f + 1)
          rw [lookup?_dictSet_ne _ _ hk']
          apply hbfreq
          have hkg2 : containsKey (base.entries ++ [(key, ())]) k = true := hkg
          rwa [containsKey_append_single_ne _ _ hk'] at hkg2
      · by_cases hgf : g = f
        · subst hgf
          obtain ⟨hlru'', hlen⟩ := hat_f lru'' hg
          subst hlru''
          have hkne : k ≠ key := by
            intro e
            subst e
            have hfalse := containsKey_dictErase_self lru.entries k (hwf.bnd g lru hl)
            have hkg2 : containsKey (dictErase lru.entries k) k = true := hkg
            rw [hfalse] at hkg2
            exact Bool.noConfusion hkg2
          have hklru : containsKey lru.entries k = true := by
            have hkg2 : containsKey (dictErase lru.entries key) k = true := hkg
            rwa [containsKey_dictErase_ne _ hkne] at hkg2
          show lookup? (dictSet c.freq key (g + 1)) k = some g
          rw [lookup?_dictSet_ne _ _ hkne]
          exact hwf.bf g lru k hl hklru
        · rw [hd2 g hgf hg1] at hg
          have hfr := hwf.bf g lru'' k hg hkg
          have hkne : k ≠ key := by
            intro e
            subst e
            rw [hf] at hfr
            exact hgf (Option.some.inj hfr).symm
          show lookup? (dictSet c.freq key (f + 1)) k = some g
          rw [lookup?_dictSet_ne _ _ hkne]
          exact hfr
    · intro g lru'' hg
      by_cases hg1 : g = f + 1
      · subst hg1
        rw [ha1] at hg
        have hlru'' : lru'' = ⟨c.max_size, base.entries ++ [(key, ())]⟩ :=
          (Option.some.inj hg).symm
        subst hlru''
        exact nodup_map_fst_append_single () hbnodup hnk
      · by_cases hgf : g = f
        · subst hgf
          obtain ⟨hlru'', _⟩ := hat_f lru'' hg
          subst hlru''
          exact nodup_map_fst_dictErase _ _ (hwf.bnd g lru hl)
        · rw [hd2 g hgf hg1] at hg
          exact hwf.bnd g lru'' hg
    · intro g lru'' hg
      by_cases hg1 : g = f + 1
      · subst hg1
        rw [ha1] at hg
        have hlru'' : lru'' = ⟨c.max_size, base.entries ++ [(key, ())]⟩ :=
          (Option.some.inj hg).symm
        subst hlru''
        simp
      · by_cases hgf : g = f
        · subst hgf
          obtain ⟨hlru'', hlen⟩ := hat_f lru'' hg
          subst hlru''
          intro e
          apply hlen
          have he : dictErase lru.entries key = [] := e
          rw [he]
          rfl
        · rw [hd2 g hgf hg1] at hg
          exact hwf.bne g lru'' hg
    · intro g lru'' hg
      by_cases hg1 : g = f + 1
      · subst hg1
        rw [ha1] at hg
        have hlru'' : lru'' = ⟨c.max_size, base.entries ++ [(key, ())]⟩ :=
          (Option.some.inj hg).symm
        subst hlru''
        rfl
      · by_cases hgf : g = f
        · subst hgf
          obtain ⟨hlru'', _⟩ := hat_f lru'' hg
          subst hlru''
          exact hwf.bms g lru hl
        · rw [hd2 g hgf hg1] at hg
          exact hwf.bms g lru'' hg
    · exact hwf.card

/-- Overwriting the value of a present key (`_set_value`) preserves
well-formedness and all key sets. -/
theorem wf_set_value {c : LfuDictCache V} (hwf : WF c) {key : Nat} (v : V)
    (hcv : containsKey c.values key = true) :
    WF { c with values := dictSet c.values key v } := by
  constructor
  · show ((dictSet c.values key v).map Prod.fst).Nodup
    rw [map_fst_dictSet_of_contains _ _ hcv]
    exact hwf.vnd
  · exact hwf.fnd
  · exact hwf.srt
  · intro k
    by_cases hk : k = key
    · subst hk
      show containsKey (dictSet c.values k v) k = containsKey c.freq k
      rw [containsKey_dictSet_self, ← hwf.vf, hcv]
    · show containsKey (dictSet c.values key v) k = containsKey c.freq k
      rw [containsKey_dictSet_ne _ _ hk, hwf.vf]
  · exact hwf.fb
  · exact hwf.bf
  · exact hwf.bnd
  · exact hwf.bne
  · exact hwf.bms
  · show (dictSet c.values key v).length ≤ c.max_size
    rw [length_dictSet_of_contains _ _ hcv]
    exact hwf.card

/-- Full description of a successful `_evict`: the victim is the oldest key
of the minimum-count bucket and is removed through `_remove_key`. -/
theorem evict_spec {c : LfuDictCache V} (hwf : WF c) (hne : c.values ≠ []) :
    ∃ f₀ lru₀ ev c',
      c.freq_to_lru.head? = some (f₀, lru₀) ∧
      lru₀.entries.head? = some (ev, ()) ∧
      (∀ g ∈ c.freq_to_lru.map Prod.fst, f₀ ≤ g) ∧
      evict c = some c' ∧
      remove_key c ev = some c' ∧
      containsKey c.values ev = true ∧
      c'.max_size = c.max_size ∧
      c'.values = dictErase c.values ev ∧
      c'.values.length + 1 = c.values.length ∧
      WF c' := by
  obtain ⟨p, hp⟩ := List.exists_mem_of_ne_nil c.values hne
  have hck₀ : containsKey c.values p.1 = true := by
    rw [containsKey_iff_mem_map_fst]
    exact List.mem_map_of_mem Prod.fst hp
  have hcf₀ : containsKey c.freq p.1 = true := by rw [← hwf.vf]; exact hck₀
  obtain ⟨f₀', hf₀'⟩ := (containsKey_iff_lookup? _ _).mp hcf₀
  obtain ⟨b', hb', _⟩ := hwf.fb p.1 f₀' hf₀'
  have hftlne : c.freq_to_lru ≠ [] := by
    intro e
    rw [e] at hb'
    exact Option.noConfusion hb'
  obtain ⟨q, rest, hftl⟩ := List.exists_cons_of_ne_nil hftlne
  obtain ⟨f₀, lru₀⟩ := q
  have hl₀ : lookup? c.freq_to_lru f₀ = some lru₀ := by
    rw [hftl]
    simp [lookup?]
  have hne₀ : lru₀.entries ≠ [] := hwf.bne f₀ lru₀ hl₀
  obtain ⟨e, erest, hent⟩ := List.exists_cons_of_ne_nil hne₀
  obtain ⟨ev, u⟩ := e
  cases u
  have hkev : containsKey lru₀.entries ev = true := by
    rw [hent]
    simp [containsKey]
  have hfev : lookup? c.freq ev = some f₀ := hwf.bf f₀ lru₀ ev hl₀ hkev
  have hcvev : containsKey c.values ev = true := by
    rw [hwf.vf]
    exact contains_of_lookup?_some hfev
  have hev : evict c = remove_key c ev := by
    simp [evict, hftl, hent]
  obtain ⟨lru, hl, hk, hrun, hwf'⟩ := remove_key_spec hwf hfev
  have hlru : lru = lru₀ := by
    rw [hl₀] at hl
    exact (Option.some.inj hl).symm
  subst hlru
  refine ⟨f₀, lru, ev, _, ?_, ?_, ?_, hev.trans hrun, hrun, hcvev, rfl, rfl, ?_, hwf'⟩
  · rw [hftl]
    rfl
  · rw [hent]
    rfl
  · intro g hg
    rw [hftl] at hg
    simp only [List.map_cons, List.mem_cons] at hg
    rcases hg with hg | hg
    · omega
    · have hsrt := hwf.srt
      rw [hftl] at hsrt
      simp only [List.map_cons] at hsrt
      exact le_of_lt (List.rel_of_sorted_cons hsrt g hg)
  · show (dictErase c.values ev).length + 1 = c.values.length
    exact length_dictErase_of_contains c.values hcvev

/-- Full description of inserting a brand-new key into a cache with spare
room: the new entry is appended at count 1 and well-formedness is preserved;
moreover the bucket insertion never takes the drop branch. -/
theorem insert_new_spec {c : LfuDictCache V} (hwf : WF c) {key : Nat} (value : V)
    (hnk : containsKey c.values key = false) (hlt : c.values.length < c.max_size) :
    (insert_new c key value).values = c.values ++ [(key, value)] ∧
    (insert_new c key value).max_size = c.max_size ∧
    WF (insert_new c key value) ∧
    insert_new c key value = insert_newFree c key value := by
  have hnf : containsKey c.freq key = false := by rw [← hwf.vf]; exact hnk
  have hms : 0 < c.max_size := by omega
  obtain ⟨base, hbase, hnkb, hltb, hbms, hbfreq, hbnodup⟩ :
      ∃ base, (lookup? c.freq_to_lru 1).getD ⟨c.max_size, []⟩ = base ∧
        containsKey base.entries key = false ∧
        base.entries.length < c.max_size ∧
        base.maxsize = c.max_size ∧
        (∀ k, containsKey base.entries k = true → lookup? c.freq k = some 1) ∧
        (base.entries.map Prod.fst).Nodup := by
    cases hb1 : lookup? c.freq_to_lru 1 with
    | none =>
      refine ⟨⟨c.max_size, []⟩, rfl, rfl, by simpa using hms, rfl, ?_, by simp⟩
      intro k hk2
      simp [containsKey] at hk2
    | some b₁ =>
      have hnk1 : containsKey b₁.entries key = false := by
        cases hck : containsKey b₁.entries key
        · rfl
        · have h2 := hwf.bf 1 b₁ key hb1 hck
          have h3 : containsKey c.freq key = true := contains_of_lookup?_some h2
          rw [hnf] at h3
          exact Bool.noConfusion h3
      have hlt1 : b₁.entries.length < c.max_size :=
        lt_of_le_of_lt (bucket_length_le hwf hb1) hlt
      exact ⟨b₁, rfl, hnk1, hlt1, hwf.bms _ _ hb1,
        fun k hk2 => hwf.bf 1 b₁ k hb1 hk2, hwf.bnd _ _ hb1⟩
  obtain ⟨ha1, ha2, ha3⟩ :=
    add_key_results c.max_size c.freq_to_lru key 1 base hbase hnkb hltb hbms hwf.srt
  have heqfree :=
    add_key_eq_free c.max_size c.freq_to_lru key 1 base hbase hnkb hltb hbms
  have hvals : dictSet c.values key value = c.values ++ [(key, value)] :=
    dictSet_of_not_contains _ _ hnk
  have hfreq2 : dictSet c.freq key 1 = c.freq ++ [(key, 1)] :=
    dictSet_of_not_contains _ _ hnf
  refine ⟨hvals, rfl, ?_, ?_⟩
  · simp only [insert_new]
    constructor
    · show ((dictSet c.values key value).map Prod.fst).Nodup
      rw [hvals]
      exact nodup_map_fst_append_single value hwf.vnd hnk
    · show ((dictSet c.freq key 1).map Prod.fst).Nodup
      rw [hfreq2]
      exact nodup_map_fst_append_single 1 hwf.fnd hnf
    · exact ha3
    · intro k
      by_cases hk : k = key
      · subst hk
        show containsKey (dictSet c.values k value) k = containsKey (dictSet c.freq k 1) k
        rw [containsKey_dictSet_self, containsKey_dictSet_self]
      · show containsKey (dictSet c.values key value) k = containsKey (dictSet c.freq key 1) k
        rw [containsKey_dictSet_ne _ _ hk, containsKey_dictSet_ne _ _ hk, hwf.vf]
    · intro k f' hkf'
      by_cases hk : k = key
      · subst hk
        rw [lookup?_dictSet_self] at hkf'
        have hf' : f' = 1 := (Option.some.inj hkf').symm
        subst hf'
        exact ⟨⟨c.max_size, base.entries ++ [(k, ())]⟩, ha1,
          containsKey_append_single_self base.entries k ()⟩
      · rw [lookup?_dictSet_ne _ _ hk] at hkf'
        obtain ⟨b₀, hb₀, hkb₀⟩ := hwf.fb k f' hkf'
        by_cases hf'1 : f' = 1
        · subst hf'1
          have hb₀base : b₀ = base := by
            rw [hb₀] at hbase
            exact hbase
          subst hb₀base
          refine ⟨⟨c.max_size, b₀.entries ++ [(key, ())]⟩, ha1, ?_⟩
          rw [containsKey_append_single_ne _ _ hk]
          exact hkb₀
        · refine ⟨b₀, ?_, hkb₀⟩
          rw [ha2 f' hf'1]
          exact hb₀
    · intro g lru'' k hg hkg
      by_cases hg1 : g = 1
      · subst hg1
        rw [ha1] at hg
        have hlru'' : lru'' = ⟨c.max_size, base.entries ++ [(key, ())]⟩ :=
          (Option.some.inj hg).symm
        subst hlru''
        by_cases hk : k = key
        · subst hk
          rw [lookup?_dictSet_self]
        · show lookup? (dictSet c.freq key 1) k = some 1
          rw [lookup?_dictSet_ne _ _ hk]
          apply hbfreq
          have hkg2 : containsKey (base.entries ++ [(key, ())]) k = true := hkg
          rwa [containsKey_append_single_ne _ _ hk] at hkg2
      · rw [ha2 g hg1] at hg
        have hfr := hwf.bf g lru'' k hg hkg
        have hk : k ≠ key := by
          intro e
          subst e
          have hc2 := contains_of_lookup?_some hfr
          rw [hnf] at hc2
          exact Bool.noConfusion hc2
        show lookup? (dictSet c.freq key 1) k = some g
        rw [lookup?_dictSet_ne _ _ hk]
        exact hfr
    · intro g lru'' hg
      by_cases hg1 : g = 1
      · subst hg1
        rw [ha1] at hg
        have hlru'' : lru'' = ⟨c.max_size, base.entries ++ [(key, ())]⟩ :=
          (Option.some.inj hg).symm
        subst hlru''
        exact nodup_map_fst_append_single () hbnodup hnkb
      · rw [ha2 g hg1] at hg
        exact hwf.bnd g lru'' hg
    · intro g lru'' hg
      by_cases hg1 : g = 1
      · subst hg1
        rw [ha1] at hg
        have hlru'' : lru'' = ⟨c.max_size, base.entries ++ [(key, ())]⟩ :=
          (Option.some.inj hg).symm
        subst hlru''
        simp
      · rw [ha2 g hg1] at hg
        exact hwf.bne g lru'' hg
    · intro g lru'' hg
      by_cases hg1 : g = 1
      · subst hg1
        rw [ha1] at hg
        have hlru'' : lru'' = ⟨c.max_size, base.entries ++ [(key, ())]⟩ :=
          (Option.some.inj hg).symm
        subst hlru''
        rfl
      · rw [ha2 g hg1] at hg
        exact hwf.bms g lru'' hg
    · show (dictSet c.values key value).length ≤ c.max_size
      rw [hvals]
      rw [List.length_append]
      simpa using hlt
  · show insert_new c key value = insert_newFree c key value
    simp only [insert_new, insert_newFree, heqfree]

/-- Full description of a successful `__getitem__` on a present key. -/
theorem getitem_spec {c : LfuDictCache V} (hwf : WF c) {key : Nat} {v : V}
    (hv : lookup? c.values key = some v) :
    ∃ f c', lookup? c.freq key = some f ∧
      getitem c key = some (v, c') ∧
      c'.max_size = c.max_size ∧
      c'.values = c.values ∧
      c'.freq = dictSet c.freq key (f + 1) ∧
      WF c' ∧
      getitem c key = getitemFree c key := by
  have hcv : containsKey c.values key = true := contains_of_lookup?_some hv
  have hcf : containsKey c.freq key = true := by rw [← hwf.vf]; exact hcv
  obtain ⟨f, hf⟩ := (containsKey_iff_lookup? _ _).mp hcf
  obtain ⟨c', hinc, hms, hvals, hfreq, hwf', hfree⟩ := increase_freq_spec hwf hf
  refine ⟨f, c', hf, ?_, hms, hvals, hfreq, hwf', ?_⟩
  · simp only [getitem, hv, hinc, Option.map_some']
  · simp only [getitem, getitemFree, hv, hfree]

/-- Full description of `__setitem__` on an already-present key: the value is
overwritten in place, the count rises by one, no key is added or removed. -/
theorem setitem_existing_spec {c : LfuDictCache V} (hwf : WF c) {key : Nat}
    (hcv : containsKey c.values key = true) (value : V) :
    ∃ f c', lookup? c.freq key = some f ∧
      setitem c key value = some c' ∧
      c'.max_size = c.max_size ∧
      c'.values = dictSet c.values key value ∧
      c'.values.map Prod.fst = c.values.map Prod.fst ∧
      c'.freq = dictSet c.freq key (f + 1) ∧
      WF c' ∧
      setitem c key value = setitemNoDrop c key value := by
  have hpos : 0 < c.max_size := max_size_pos hwf hcv
  have hms0 : ¬c.max_size = 0 := by omega
  have hcf : containsKey c.freq key = true := by rw [← hwf.vf]; exact hcv
  obtain ⟨f, hf⟩ := (containsKey_iff_lookup? _ _).mp hcf
  have hwf₁ : WF { c with values := dictSet c.values key value } := wf_set_value hwf value hcv
  have hf₁ : lookup? ({ c with values := dictSet c.values key value } :
      LfuDictCache V).freq key = some f := hf
  obtain ⟨c', hinc, hms, hvals, hfreq, hwf', hfree⟩ := increase_freq_spec hwf₁ hf₁
  refine ⟨f, c', hf, ?_, hms, hvals, ?_, hfreq, hwf', ?_⟩
  · simp only [setitem, if_neg hms0, hcv, if_true]
    exact hinc
  · rw [hvals]
    show (dictSet c.values key value).map Prod.fst = c.values.map Prod.fst
    exact map_fst_dictSet_of_contains _ _ hcv
  · simp only [setitem, setitemNoDrop, if_neg hms0, hcv, if_true]
    exact hfree

/-- Full description of `__setitem__` on a brand-new key when the cache has
spare room: the entry is appended at count 1, nothing is evicted. -/
theorem setitem_new_notfull_spec {c : LfuDictCache V} (hwf : WF c) {key : Nat}
    (hnk : containsKey c.values key = false) (hlt : c.values.length < c.max_size)
    (value : V) :
    setitem c key value = some (insert_new c key value) ∧
    (insert_new c key value).values = c.values ++ [(key, value)] ∧
    (insert_new c key value).max_size = c.max_size ∧
    WF (insert_new c key value) ∧
    setitem c key value = setitemNoDrop c key value := by
  have hms0 : ¬c.max_size = 0 := by omega
  have hfull : c.is_full = false := by
    simp only [is_full, ge_iff_le, decide_eq_false_iff_not, not_le]
    exact hlt
  obtain ⟨hvals, hms, hwf', hfree⟩ := insert_new_spec hwf value hnk hlt
  refine ⟨?_, hvals, hms, hwf', ?_⟩
  · simp only [setitem, if_neg hms0, hnk, Bool.false_eq_true, if_false, hfull, Option.map_some']
  · simp only [setitem, setitemNoDrop, if_neg hms0, hnk, Bool.false_eq_true, if_false, hfull,
      Option.map_some', hfree]

/-- Full description of `__setitem__` on a brand-new key when the cache is
full: the oldest key of the minimum-count bucket is evicted through the
delete path, then the new entry is inserted at count 1. -/
theorem setitem_new_full_spec {c : LfuDictCache V} (hwf : WF c) {key : Nat}
    (hnk : containsKey c.values key = false) (hfull : c.values.length = c.max_size)
    (hpos : 0 < c.max_size) (value : V) :
    ∃ f₀ lru₀ ev c₁,
      c.freq_to_lru.head? = some (f₀, lru₀) ∧
      lru₀.entries.head? = some (ev, ()) ∧
      (∀ g ∈ c.freq_to_lru.map Prod.fst, f₀ ≤ g) ∧
      remove_key c ev = some c₁ ∧
      delitem c ev = some c₁ ∧
      containsKey c.values ev = true ∧
      c₁.values = dictErase c.values ev ∧
      c₁.values.length + 1 = c.values.length ∧
      setitem c key value = some (insert_new c₁ key value) ∧
      (insert_new c₁ key value).values = dictErase c.values ev ++ [(key, value)] ∧
      (insert_new c₁ key value).values.length = c.max_size ∧
      (insert_new c₁ key value).max_size = c.max_size ∧
      WF (insert_new c₁ key value) ∧
      setitem c key value = setitemNoDrop c key value := by
  have hms0 : ¬c.max_size = 0 := by omega
  have hne : c.values ≠ [] := by
    intro e
    rw [e] at hfull
    simp at hfull
    omega
  obtain ⟨f₀, lru₀, ev, c₁, hhead, hent, hmin, hev, hrm, hcvev, hms₁, hvals₁, hlen₁, hwf₁⟩ :=
    evict_spec hwf hne
  have hkev : key ≠ ev := by
    intro e
    subst e
    rw [hcvev] at hnk
    exact Bool.noConfusion hnk
  have hnk₁ : containsKey c₁.values key = false := by
    rw [hvals₁, containsKey_dictErase_ne _ hkev]
    exact hnk
  have hlt₁ : c₁.values.length < c₁.max_size := by omega
  obtain ⟨hvals₂, hms₂, hwf₂, hfree₂⟩ := insert_new_spec hwf₁ value hnk₁ hlt₁
  have hfullb : c.is_full = true := by
    simp only [is_full, ge_iff_le, decide_eq_true_eq]
    omega
  have hset : setitem c key value = some (insert_new c₁ key value) := by
    simp only [setitem, if_neg hms0, hnk, Bool.false_eq_true, if_false, hfullb, if_true, hev,
      Option.map_some']
  refine ⟨f₀, lru₀, ev, c₁, hhead, hent, hmin, hrm, hrm, hcvev, hvals₁, hlen₁, hset, ?_, ?_,
    ?_, hwf₂, ?_⟩
  · rw [hvals₂, hvals₁]
  · rw [hvals₂]
    rw [List.length_append, hvals₁]
    have : (dictErase c.values ev).length + 1 = c.values.length := by
      rw [← hvals₁]
      exact hlen₁
    simp only [List.length_singleton]
    omega
  · rw [hms₂, hms₁]
  · simp only [setitem, setitemNoDrop, if_neg hms0, hnk, Bool.false_eq_true, if_false, hfullb,
      if_true, hev, Option.map_some', hfree₂]

/-- The empty cache of any capacity is well-formed. -/
theorem wf_nil (ms : Nat) : WF (⟨ms, [], [], []⟩ : LfuDictCache V) := by
  refine ⟨by simp, by simp, by simp, fun k => rfl, ?_, ?_, ?_, ?_, ?_, Nat.zero_le ms⟩
  · intro k f h
    exact Option.noConfusion h
  · intro f lru k h _
    exact Option.noConfusion h
  · intro f lru h
    exact Option.noConfusion h
  · intro f lru h
    exact Option.noConfusion h
  · intro f lru h
    exact Option.noConfusion h

/-- Every public operation preserves well-formedness and the capacity. -/
theorem step_preserves {c : LfuDictCache V} (hwf : WF c) (op : Op V) :
    WF (step c op) ∧ (step c op).max_size = c.max_size := by
  cases op with
  | get k =>
    simp only [step]
    cases hg : getitem c k with
    | none => exact ⟨hwf, rfl⟩
    | some p =>
      cases hv : lookup? c.values k with
      | none =>
        simp only [getitem, hv] at hg
        exact Option.noConfusion hg
      | some v =>
        obtain ⟨f, c', hf, hget, hms, _, _, hwf', _⟩ := getitem_spec hwf hv
        rw [hget] at hg
        have hp : (v, c') = p := Option.some.inj hg
        have hc : c' = p.2 := congrArg Prod.snd hp
        subst hc
        exact ⟨hwf', hms⟩
  | set k v =>
    simp only [step]
    cases hs : setitem c k v with
    | none => exact ⟨hwf, rfl⟩
    | some c' =>
      by_cases hms0 : c.max_size = 0
      · have hid : setitem c k v = some c := by simp [setitem, hms0]
        rw [hid] at hs
        have : c = c' := Option.some.inj hs
        subst this
        exact ⟨hwf, rfl⟩
      · by_cases hcv : containsKey c.values k = true
        · obtain ⟨f, c'', _, hset, hms, _, _, _, hwf', _⟩ := setitem_existing_spec hwf hcv v
          rw [hset] at hs
          have : c'' = c' := Option.some.inj hs
          subst this
          exact ⟨hwf', hms⟩
        · have hnk : containsKey c.values k = false := by
            cases h : containsKey c.values k
            · rfl
            · exact absurd h hcv
          by_cases hlt : c.values.length < c.max_size
          · obtain ⟨hset, _, hms, hwf', _⟩ := setitem_new_notfull_spec hwf hnk hlt v
            rw [hset] at hs
            have : insert_new c k v = c' := Option.some.inj hs
            rw [← this]
            exact ⟨hwf', hms⟩
          · have hfeq : c.values.length = c.max_size :=
              le_antisymm hwf.card (le_of_not_lt hlt)
            have hpos : 0 < c.max_size := Nat.pos_of_ne_zero hms0
            obtain ⟨f₀, lru₀, ev, c₁, _, _, _, _, _, _, _, _, hset, _, _, hms, hwf', _⟩ :=
              setitem_new_full_spec hwf hnk hfeq hpos v
            rw [hset] at hs
            have : insert_new c₁ k v = c' := Option.some.inj hs
            rw [← this]
            exact ⟨hwf', hms⟩
  | del k =>
    simp only [step]
    cases hd : delitem c k with
    | none => exact ⟨hwf, rfl⟩
    | some c' =>
      have hd2 : remove_key c k = some c' := hd
      cases hf : lookup? c.freq k with
      | none =>
        simp only [remove_key, hf] at hd2
        exact Option.noConfusion hd2
      | some f =>
        obtain ⟨lru, hl, hk, hrun, hwf'⟩ := remove_key_spec hwf hf
        rw [hrun] at hd2
        have := Option.some.inj hd2
        rw [← this]
        exact ⟨hwf', rfl⟩

/-- Any sequence of public operations preserves well-formedness and the
capacity. -/
theorem run_preserves {c : LfuDictCache V} (hwf : WF c) (ops : List (Op V)) :
    WF (run c ops) ∧ (run c ops).max_size = c.max_size := by
  induction ops generalizing c with
  | nil => exact ⟨hwf, rfl⟩
  | cons op ops ih =>
    obtain ⟨hwf1, hms1⟩ := step_preserves hwf op
    obtain ⟨hwf2, hms2⟩ := ih hwf1
    exact ⟨hwf2, hms2.trans hms1⟩

/-- `containsKey` only depends on the key sequence. -/
theorem containsKey_congr_map_fst {A B : Type} :
    ∀ {l₁ : List (Nat × A)} {l₂ : List (Nat × B)},
      l₁.map Prod.fst = l₂.map Prod.fst → ∀ k, containsKey l₁ k = containsKey l₂ k := by
  intro l₁
  induction l₁ with
  | nil =>
    intro l₂ h k
    rw [List.map_nil] at h
    rw [List.map_eq_nil_iff.mp h.symm]
    rfl
  | cons p t ih =>
    intro l₂ h k
    obtain ⟨a, b⟩ := p
    cases l₂ with
    | nil => simp at h
    | cons q t₂ =>
      obtain ⟨a₂, b₂⟩ := q
      simp only [List.map_cons, List.cons.injEq] at h
      simp only [containsKey, h.1, ih h.2 k]

/-- A single touch (get of a present key, or set on a present key) keeps the
key sequence of the value map unchanged. -/
theorem step_touch {c : LfuDictCache V} (hwf : WF c) {op : Op V} (hop : touches c op) :
    (step c op).values.map Prod.fst = c.values.map Prod.fst ∧ WF (step c op) := by
  cases op with
  | get k =>
    have hcv : containsKey c.values k = true := hop
    obtain ⟨v, hv⟩ := (containsKey_iff_lookup? _ _).mp hcv
    obtain ⟨f, c', hf, hget, _, hvals, _, hwf', _⟩ := getitem_spec hwf hv
    simp only [step, hget]
    exact ⟨by rw [hvals], hwf'⟩
  | set k v =>
    have hcv : containsKey c.values k = true := hop
    obtain ⟨f, c', hf, hset, _, _, hmap, _, hwf', _⟩ := setitem_existing_spec hwf hcv v
    simp only [step, hset, Option.getD_some]
    exact ⟨hmap, hwf'⟩
  | del k => exact absurd hop id

/-- A sequence of touches keeps the key sequence of the value map
unchanged. -/
theorem run_touches {c : LfuDictCache V} (hwf : WF c) (ops : List (Op V))
    (h : ∀ op ∈ ops, touches c op) :
    (run c ops).values.map Prod.fst = c.values.map Prod.fst := by
  induction ops generalizing c with
  | nil => rfl
  | cons op ops ih =>
    obtain ⟨hmap, hwf'⟩ := step_touch hwf (h op (List.mem_cons_self op ops))
    have htrans : ∀ op' ∈ ops, touches (step c op) op' := by
      intro op' hmem
      have hop' := h op' (List.mem_cons_of_mem op hmem)
      cases op' with
      | get k' =>
        show containsKey (step c op).values k' = true
        rw [containsKey_congr_map_fst hmap k']
        exact hop'
      | set k' v' =>
        show containsKey (step c op).values k' = true
        rw [containsKey_congr_map_fst hmap k']
        exact hop'
      | del k' => exact hop'
    have hrun : run c (op :: ops) = run (step c op) ops := rfl
    rw [hrun, ih hwf' htrans, hmap]

/-- Exhausting a freshly-created iterator with no interleaved mutation yields
exactly the keys of the value map in insertion order. -/
theorem iterDrainAux_spec (c : LfuDictCache V) :
    ∀ (fuel pos : Nat), c.values.length ≤ pos + fuel →
      iterDrainAux c ⟨pos, c.values.length⟩ fuel = (c.values.map Prod.fst).drop pos := by
  intro fuel
  induction fuel with
  | zero =>
    intro pos h
    rw [List.drop_eq_nil_of_le (by simpa using h)]
    rfl
  | succ n ih =>
    intro pos h
    have hok : iterNext c ⟨pos, c.values.length⟩
        = match (c.values.map Prod.fst)[pos]? with
          | none => Except.ok none
          | some k => Except.ok (some (k, ⟨pos + 1, c.values.length⟩)) := by
      simp only [iterNext, if_neg (fun hh : c.values.length ≠ c.values.length => hh rfl)]
    by_cases hpos : pos < c.values.length
    · have hpos' : pos < (c.values.map Prod.fst).length := by simpa using hpos
      have hget : (c.values.map Prod.fst)[pos]? = some (c.values.map Prod.fst)[pos] :=
        List.getElem?_eq_getElem hpos'
      rw [iterDrainAux, hok, hget]
      show (c.values.map Prod.fst)[pos] :: iterDrainAux c ⟨pos + 1, c.values.length⟩ n = _
      rw [ih (pos + 1) (by omega), List.drop_eq_getElem_cons hpos']
    · have hge : (c.values.map Prod.fst).length ≤ pos := by simpa using Nat.le_of_not_lt hpos
      have hget : (c.values.map Prod.fst)[pos]? = none := List.getElem?_eq_none hge
      rw [iterDrainAux, hok, hget]
      rw [List.drop_eq_nil_of_le hge]

/-- `iterDrain` produces the same key sequence as `iterate`. -/
theorem iterDrain_eq_iterate (c : LfuDictCache V) : iterDrain c = iterate c := by
  have h := iterDrainAux_spec c c.values.length 0 (by omega)
  simpa [iterDrain, iterInit, iterate] using h

/-- Advancing an iterator after the value map changed size errors, modelling
CPython's `RuntimeError: dictionary changed size during iteration`. -/
theorem iterNext_error (c : LfuDictCache V) (it : ValuesIter)
    (h : c.values.length ≠ it.di_used) : iterNext c it = Except.error () := by
  simp [iterNext, h]

end LfuDictCache

/-! ## Claim theorems

Keys of the concrete scenarios are encoded as `a = 0`, `b = 1`, `c = 2`,
`d = 3`. -/

open LfuDictCache

/-- Claim C1: on a full well-formed cache (capacity at least 1), a `set` of
a brand-new key first removes exactly one entry — the least-recently-touched
key (front of order) of the bucket with globally minimum count, via the same
path as `delete` — and then inserts the new key; and the capacity-3
scenario `set(a,1); set(b,2); set(c,3); set(a,10); set(a,40); get(c);
get(b); set(d,4)` leaves `get(c)` failing and values a=40, b=2, d=4. -/
theorem C1_lfu_eviction :
    (∀ (c : LfuDictCache Nat) (key v : Nat), WF c →
      1 ≤ c.max_size → c.values.length = c.max_size →
      containsKey c.values key = false →
      ∃ f₀ lru₀ ev c₁,
        c.freq_to_lru.head? = some (f₀, lru₀) ∧
        lru₀.entries.head? = some (ev, ()) ∧
        (∀ g ∈ c.freq_to_lru.map Prod.fst, f₀ ≤ g) ∧
        delitem c ev = some c₁ ∧
        c₁.values.length + 1 = c.values.length ∧
        setitem c key v = some (insert_new c₁ key v) ∧
        (insert_new c₁ key v).values.length = c.max_size) ∧
    (getitem (run (⟨3, [], [], []⟩ : LfuDictCache Nat)
        [Op.set 0 1, Op.set 1 2, Op.set 2 3, Op.set 0 10, Op.set 0 40,
         Op.get 2, Op.get 1, Op.set 3 4]) 2 = none ∧
      lookup? (run (⟨3, [], [], []⟩ : LfuDictCache Nat)
        [Op.set 0 1, Op.set 1 2, Op.set 2 3, Op.set 0 10, Op.set 0 40,
         Op.get 2, Op.get 1, Op.set 3 4]).values 0 = some 40 ∧
      lookup? (run (⟨3, [], [], []⟩ : LfuDictCache Nat)
        [Op.set 0 1, Op.set 1 2, Op.set 2 3, Op.set 0 10, Op.set 0 40,
         Op.get 2, Op.get 1, Op.set 3 4]).values 1 = some 2 ∧
      lookup? (run (⟨3, [], [], []⟩ : LfuDictCache Nat)
        [Op.set 0 1, Op.set 1 2, Op.set 2 3, Op.set 0 10, Op.set 0 40,
         Op.get 2, Op.get 1, Op.set 3 4]).values 3 = some 4) := by
  constructor
  · intro c key v hwf hpos hfull hnk
    obtain ⟨f₀, lru₀, ev, c₁, hhead, hent, hmin, hrm, hdel, hcvev, hvals₁, hlen₁, hset,
      hvals₂, hlen₂, hms₂, hwf₂, hfree⟩ :=
      setitem_new_full_spec hwf hnk hfull (by omega) v
    exact ⟨f₀, lru₀, ev, c₁, hhead, hent, hmin, hdel, hlen₁, hset, hlen₂⟩
  · exact ⟨by decide, by decide, by decide, by decide⟩

/-- Witness for C1 at a concrete full cache of capacity 1 holding key 0. -/
theorem C1_lfu_eviction_witness :
    ∃ f₀ lru₀ ev c₁,
      (step (⟨1, [], [], []⟩ : LfuDictCache Nat) (Op.set 0 5)).freq_to_lru.head?
        = some (f₀, lru₀) ∧
      lru₀.entries.head? = some (ev, ()) ∧
      (∀ g ∈ (step (⟨1, [], [], []⟩ : LfuDictCache Nat) (Op.set 0 5)).freq_to_lru.map
        Prod.fst, f₀ ≤ g) ∧
      delitem (step (⟨1, [], [], []⟩ : LfuDictCache Nat) (Op.set 0 5)) ev = some c₁ ∧
      c₁.values.length + 1
        = (step (⟨1, [], [], []⟩ : LfuDictCache Nat) (Op.set 0 5)).values.length ∧
      setitem (step (⟨1, [], [], []⟩ : LfuDictCache Nat) (Op.set 0 5)) 1 7
        = some (insert_new c₁ 1 7) ∧
      (insert_new c₁ 1 7).values.length
        = (step (⟨1, [], [], []⟩ : LfuDictCache Nat) (Op.set 0 5)).max_size :=
  C1_lfu_eviction.1 (step (⟨1, [], [], []⟩ : LfuDictCache Nat) (Op.set 0 5)) 1 7
    ((step_preserves (wf_nil 1) (Op.set 0 5)).1) (by decide) (by decide) (by decide)

/-- Claim C2: for every capacity C ≥ 0 and every operation sequence on a
cache constructed with capacity C, the number of stored keys never exceeds C
after any prefix (equivalently, after any sequence). -/
theorem C2_capacity_bound (C : Nat) (c₀ : LfuDictCache Nat)
    (h : LfuDictCache.init Nat (C : Int) = some c₀) (ops : List (Op Nat)) :
    size (run c₀ ops) ≤ C := by
  have hc : ¬((C : Int) < 0) := by omega
  rw [LfuDictCache.init, if_neg hc] at h
  have hc₀ : (⟨(C : Int).toNat, [], [], []⟩ : LfuDictCache Nat) = c₀ := Option.some.inj h
  have htn : (C : Int).toNat = C := Int.toNat_natCast C
  rw [htn] at hc₀
  subst hc₀
  obtain ⟨hwf, hms⟩ := run_preserves (wf_nil C) ops
  have hcard := hwf.card
  rw [hms] at hcard
  exact hcard

/-- Witness for C2 at capacity 2 and a concrete operation sequence. -/
theorem C2_capacity_bound_witness :
    size (run (⟨2, [], [], []⟩ : LfuDictCache Nat)
      [Op.set 0 1, Op.set 1 2, Op.set 2 3, Op.get 1, Op.del 1]) ≤ 2 :=
  C2_capacity_bound 2 ⟨2, [], [], []⟩ (by decide)
    [Op.set 0 1, Op.set 1 2, Op.set 2 3, Op.get 1, Op.del 1]

/-- Claim C3: a successful `get` and a `set` on an existing key each raise
the key's stored count by exactly 1, and neither adds or removes any key
(no eviction is caused by a touch). -/
theorem C3_touch_semantics {c : LfuDictCache Nat} {k v : Nat} (hwf : WF c)
    (hv : lookup? c.values k = some v) (w : Nat) :
    ∃ f, lookup? c.freq k = some f ∧
      (∃ c', getitem c k = some (v, c') ∧
        lookup? c'.freq k = some (f + 1) ∧
        c'.values.map Prod.fst = c.values.map Prod.fst) ∧
      (∃ c'', setitem c k w = some c'' ∧
        lookup? c''.freq k = some (f + 1) ∧
        c''.values.map Prod.fst = c.values.map Prod.fst) := by
  obtain ⟨f, c', hf, hget, _, hvals, hfreq, _, _⟩ := getitem_spec hwf hv
  have hcv : containsKey c.values k = true := contains_of_lookup?_some hv
  obtain ⟨f₂, c'', hf₂, hset, _, _, hmap, hfreq₂, _, _⟩ := setitem_existing_spec hwf hcv w
  have hff : f₂ = f := Option.some.inj (hf₂.symm.trans hf)
  subst hff
  refine ⟨f₂, hf, ⟨c', hget, ?_, by rw [hvals]⟩, ⟨c'', hset, ?_, hmap⟩⟩
  · rw [hfreq, lookup?_dictSet_self]
  · rw [hfreq₂, lookup?_dictSet_self]

/-- Witness for C3 at a concrete one-entry cache. -/
theorem C3_touch_semantics_witness :
    ∃ f, lookup? (step (⟨2, [], [], []⟩ : LfuDictCache Nat) (Op.set 0 5)).freq 0 = some f ∧
      (∃ c', getitem (step (⟨2, [], [], []⟩ : LfuDictCache Nat) (Op.set 0 5)) 0
          = some (5, c') ∧
        lookup? c'.freq 0 = some (f + 1) ∧
        c'.values.map Prod.fst
          = (step (⟨2, [], [], []⟩ : LfuDictCache Nat) (Op.set 0 5)).values.map Prod.fst) ∧
      (∃ c'', setitem (step (⟨2, [], [], []⟩ : LfuDictCache Nat) (Op.set 0 5)) 0 9
          = some c'' ∧
        lookup? c''.freq 0 = some (f + 1) ∧
        c''.values.map Prod.fst
          = (step (⟨2, [], [], []⟩ : LfuDictCache Nat) (Op.set 0 5)).values.map Prod.fst) :=
  C3_touch_semantics ((step_preserves (wf_nil 2) (Op.set 0 5)).1) (by decide) 9

/-- Claim C4: every public operation preserves structural well-formedness:
each stored key has exactly one count and sits in exactly one bucket, once,
at that count, and a bucket is in the index iff it is non-empty. -/
theorem C4_structural_invariant {c : LfuDictCache Nat} (hwf : WF c) (op : Op Nat) :
    WF (step c op) :=
  (step_preserves hwf op).1

/-- Witness for C4 at the empty capacity-3 cache and a concrete `set`. -/
theorem C4_structural_invariant_witness :
    WF (step (⟨3, [], [], []⟩ : LfuDictCache Nat) (Op.set 0 5)) :=
  C4_structural_invariant (wf_nil 3) (Op.set 0 5)

/-- Claim C5: on a key not present in a well-formed cache, `get` and
`delete` both fail, and the state after the failed operation is exactly the
state before it (the source raises before any mutation). -/
theorem C5_notfound_no_mutation {c : LfuDictCache Nat} (hwf : WF c) {k : Nat}
    (hnk : containsKey c.values k = false) :
    getitem c k = none ∧ delitem c k = none ∧
    step c (Op.get k) = c ∧ step c (Op.del k) = c := by
  have hnf : containsKey c.freq k = false := by rw [← hwf.vf]; exact hnk
  have hv : lookup? c.values k = none := (lookup?_eq_none_iff _ _).mpr hnk
  have hf : lookup? c.freq k = none := (lookup?_eq_none_iff _ _).mpr hnf
  have hget : getitem c k = none := by simp [getitem, hv]
  have hdel : delitem c k = none := by simp [delitem, remove_key, hf]
  exact ⟨hget, hdel, by simp [step, hget], by simp [step, hdel]⟩

/-- Witness for C5 at a concrete cache not containing key 7. -/
theorem C5_notfound_no_mutation_witness :
    getitem (step (⟨3, [], [], []⟩ : LfuDictCache Nat) (Op.set 0 5)) 7 = none ∧
    delitem (step (⟨3, [], [], []⟩ : LfuDictCache Nat) (Op.set 0 5)) 7 = none ∧
    step (step (⟨3, [], [], []⟩ : LfuDictCache Nat) (Op.set 0 5)) (Op.get 7)
      = step (⟨3, [], [], []⟩ : LfuDictCache Nat) (Op.set 0 5) ∧
    step (step (⟨3, [], [], []⟩ : LfuDictCache Nat) (Op.set 0 5)) (Op.del 7)
      = step (⟨3, [], [], []⟩ : LfuDictCache Nat) (Op.set 0 5) :=
  C5_notfound_no_mutation ((step_preserves (wf_nil 3) (Op.set 0 5)).1) (by decide)

/-- Claim C6: the key sequence of `iterate()` is in insertion order of the
value store and is invariant under any interleaving of `get`s on present
keys and value-overwriting `set`s on present keys; only a brand-new
insertion appends to it, and deletion or eviction removes from it. -/
theorem C6_insertion_order_iteration {c : LfuDictCache Nat} (hwf : WF c) :
    (∀ ops : List (Op Nat), (∀ op ∈ ops, touches c op) →
      iterate (run c ops) = iterate c) ∧
    (∀ k v, containsKey c.values k = false → c.values.length < c.max_size →
      ∃ c', setitem c k v = some c' ∧ iterate c' = iterate c ++ [k]) ∧
    (∀ k, containsKey c.values k = true →
      ∃ c', delitem c k = some c' ∧ iterate c' = (iterate c).erase k) ∧
    (∀ k v, containsKey c.values k = false → c.values.length = c.max_size →
      0 < c.max_size →
      ∃ ev c', setitem c k v = some c' ∧
        iterate c' = (iterate c).erase ev ++ [k]) := by
  refine ⟨?_, ?_, ?_, ?_⟩
  · intro ops h
    exact run_touches hwf ops h
  · intro k v hnk hlt
    obtain ⟨hset, hvals, _, _, _⟩ := setitem_new_notfull_spec hwf hnk hlt v
    refine ⟨insert_new c k v, hset, ?_⟩
    show (insert_new c k v).values.map Prod.fst = _
    rw [hvals, List.map_append]
    rfl
  · intro k hck
    have hcf : containsKey c.freq k = true := by rw [← hwf.vf]; exact hck
    obtain ⟨f, hf⟩ := (containsKey_iff_lookup? _ _).mp hcf
    obtain ⟨lru, hl, hk, hrun, _⟩ := remove_key_spec hwf hf
    refine ⟨_, hrun, ?_⟩
    show (dictErase c.values k).map Prod.fst = (c.values.map Prod.fst).erase k
    exact map_fst_dictErase c.values k
  · intro k v hnk hfull hpos
    obtain ⟨f₀, lru₀, ev, c₁, _, _, _, _, _, _, hvals₁, _, hset, hvals₂, _, _, _, _⟩ :=
      setitem_new_full_spec hwf hnk hfull hpos v
    refine ⟨ev, insert_new c₁ k v, hset, ?_⟩
    show (insert_new c₁ k v).values.map Prod.fst
      = (c.values.map Prod.fst).erase ev ++ [k]
    rw [hvals₂, List.map_append, map_fst_dictErase]
    rfl

/-- Witness for C6 at a concrete two-entry cache. -/
theorem C6_insertion_order_iteration_witness :
    (∀ ops : List (Op Nat),
      (∀ op ∈ ops, touches (run (⟨3, [], [], []⟩ : LfuDictCache Nat)
        [Op.set 0 1, Op.set 1 2]) op) →
      iterate (run (run (⟨3, [], [], []⟩ : LfuDictCache Nat) [Op.set 0 1, Op.set 1 2]) ops)
        = iterate (run (⟨3, [], [], []⟩ : LfuDictCache Nat) [Op.set 0 1, Op.set 1 2])) ∧
    (∀ k v, containsKey (run (⟨3, [], [], []⟩ : LfuDictCache Nat)
        [Op.set 0 1, Op.set 1 2]).values k = false →
      (run (⟨3, [], [], []⟩ : LfuDictCache Nat) [Op.set 0 1, Op.set 1 2]).values.length
        < (run (⟨3, [], [], []⟩ : LfuDictCache Nat) [Op.set 0 1, Op.set 1 2]).max_size →
      ∃ c', setitem (run (⟨3, [], [], []⟩ : LfuDictCache Nat) [Op.set 0 1, Op.set 1 2]) k v
          = some c' ∧
        iterate c'
          = iterate (run (⟨3, [], [], []⟩ : LfuDictCache Nat) [Op.set 0 1, Op.set 1 2])
            ++ [k]) ∧
    (∀ k, containsKey (run (⟨3, [], [], []⟩ : LfuDictCache Nat)
        [Op.set 0 1, Op.set 1 2]).values k = true →
      ∃ c', delitem (run (⟨3, [], [], []⟩ : LfuDictCache Nat) [Op.set 0 1, Op.set 1 2]) k
          = some c' ∧
        iterate c'
          = (iterate (run (⟨3, [], [], []⟩ : LfuDictCache Nat)
              [Op.set 0 1, Op.set 1 2])).erase k) ∧
    (∀ k v, containsKey (run (⟨3, [], [], []⟩ : LfuDictCache Nat)
        [Op.set 0 1, Op.set 1 2]).values k = false →
      (run (⟨3, [], [], []⟩ : LfuDictCache Nat) [Op.set 0 1, Op.set 1 2]).values.length
        = (run (⟨3, [], [], []⟩ : LfuDictCache Nat) [Op.set 0 1, Op.set 1 2]).max_size →
      0 < (run (⟨3, [], [], []⟩ : LfuDictCache Nat) [Op.set 0 1, Op.set 1 2]).max_size →
      ∃ ev c', setitem (run (⟨3, [], [], []⟩ : LfuDictCache Nat) [Op.set 0 1, Op.set 1 2])
          k v = some c' ∧
        iterate c'
          = (iterate (run (⟨3, [], [], []⟩ : LfuDictCache Nat)
              [Op.set 0 1, Op.set 1 2])).erase ev ++ [k]) :=
  C6_insertion_order_iteration
    ((run_preserves (wf_nil 3) [Op.set 0 1, Op.set 1 2]).1)

/-- Claim C7, counterexample: the iterator returned by `__iter__` is a live
view, not a snapshot.  On the cache holding keys 0 and 1, creating the
iterator and then deleting key 0 makes the next advance error
(`RuntimeError` in the source), whereas without the mutation the same
iterator yields key 0; so mutation after `iterate()` does invalidate the
sequence. -/
theorem C7_live_iterator_counterexample :
    iterNext (step (run (⟨3, [], [], []⟩ : LfuDictCache Nat) [Op.set 0 1, Op.set 1 2])
        (Op.del 0))
      (iterInit (run (⟨3, [], [], []⟩ : LfuDictCache Nat) [Op.set 0 1, Op.set 1 2]))
      = Except.error () ∧
    iterNext (run (⟨3, [], [], []⟩ : LfuDictCache Nat) [Op.set 0 1, Op.set 1 2])
      (iterInit (run (⟨3, [], [], []⟩ : LfuDictCache Nat) [Op.set 0 1, Op.set 1 2]))
      = Except.ok (some (0, ⟨1, 2⟩)) :=
  ⟨rfl, rfl⟩

/-- Claim C7 as amended: each `iterate()` call produces a fresh iterator
starting at position 0 (finite and restartable), and exhausting it without
interleaved mutation yields exactly the keys in insertion order; but the
iterator is a live view: whenever the value map's size differs from the size
recorded at creation, the next advance errors. -/
theorem C7_live_iterator_amended :
    (∀ c : LfuDictCache Nat, iterDrain c = iterate c) ∧
    (∀ (c : LfuDictCache Nat) (it : ValuesIter), c.values.length ≠ it.di_used →
      iterNext c it = Except.error ()) ∧
    (∀ c : LfuDictCache Nat, (iterInit c).pos = 0 ∧
      (iterInit c).di_used = c.values.length) :=
  ⟨fun c => iterDrain_eq_iterate c,
   fun c it h => iterNext_error c it h,
   fun _ => ⟨rfl, rfl⟩⟩

/-- Witness for the amended C7: the error branch fires at a concrete
mismatched iterator. -/
theorem C7_live_iterator_amended_witness :
    iterNext (run (⟨3, [], [], []⟩ : LfuDictCache Nat) [Op.set 0 1, Op.set 1 2])
      (⟨0, 5⟩ : ValuesIter) = Except.error () :=
  C7_live_iterator_amended.2.1 (run (⟨3, [], [], []⟩ : LfuDictCache Nat)
    [Op.set 0 1, Op.set 1 2]) ⟨0, 5⟩ (by decide)

/-- Claim C8: construction with capacity 0 succeeds; on the resulting cache,
every `set` is a no-op, every `get` fails, all three internal maps stay
empty, and after any operation sequence the state is unchanged with
`len() = 0`. -/
theorem C8_zero_capacity (c₀ : LfuDictCache Nat)
    (h : LfuDictCache.init Nat 0 = some c₀) :
    c₀.values = [] ∧ c₀.freq = [] ∧ c₀.freq_to_lru = [] ∧
    (∀ k v, setitem c₀ k v = some c₀) ∧
    (∀ k, getitem c₀ k = none) ∧
    (∀ ops : List (Op Nat), run c₀ ops = c₀ ∧ size (run c₀ ops) = 0) := by
  have hc₀ : (⟨0, [], [], []⟩ : LfuDictCache Nat) = c₀ := by
    rw [LfuDictCache.init, if_neg (by omega)] at h
    exact Option.some.inj h
  subst hc₀
  have hstep : ∀ op : Op Nat, step (⟨0, [], [], []⟩ : LfuDictCache Nat) op
      = ⟨0, [], [], []⟩ := by
    intro op
    cases op with
    | get k => simp [step, getitem, lookup?]
    | set k v => simp [step, setitem]
    | del k => simp [step, delitem, remove_key, lookup?]
  have hrun : ∀ ops : List (Op Nat), run (⟨0, [], [], []⟩ : LfuDictCache Nat) ops
      = ⟨0, [], [], []⟩ := by
    intro ops
    induction ops with
    | nil => rfl
    | cons op ops ih =>
      show run (step (⟨0, [], [], []⟩ : LfuDictCache Nat) op) ops = _
      rw [hstep op]
      exact ih
  refine ⟨rfl, rfl, rfl, ?_, ?_, ?_⟩
  · intro k v
    simp [setitem]
  · intro k
    simp [getitem, lookup?]
  · intro ops
    refine ⟨hrun ops, ?_⟩
    rw [hrun ops]
    rfl

/-- Witness for C8 at the literal zero-capacity state. -/
theorem C8_zero_capacity_witness :
    (⟨0, [], [], []⟩ : LfuDictCache Nat).values = [] ∧
    (⟨0, [], [], []⟩ : LfuDictCache Nat).freq = [] ∧
    (⟨0, [], [], []⟩ : LfuDictCache Nat).freq_to_lru = [] ∧
    (∀ k v, setitem (⟨0, [], [], []⟩ : LfuDictCache Nat) k v
      = some (⟨0, [], [], []⟩ : LfuDictCache Nat)) ∧
    (∀ k, getitem (⟨0, [], [], []⟩ : LfuDictCache Nat) k = none) ∧
    (∀ ops : List (Op Nat), run (⟨0, [], [], []⟩ : LfuDictCache Nat) ops
        = (⟨0, [], [], []⟩ : LfuDictCache Nat) ∧
      size (run (⟨0, [], [], []⟩ : LfuDictCache Nat) ops) = 0) :=
  C8_zero_capacity ⟨0, [], [], []⟩ rfl

/-- Claim C9: in every well-formed state of a capacity-C cache, every bucket
holds at most C keys while its own `maxsize` equals C, so the bucket bound
is never binding; and every public operation agrees with its variant whose
bucket insertion has no silent-drop branch — the drop branch is never
executed. -/
theorem C9_bucket_bound_never_binding {c : LfuDictCache Nat} (hwf : WF c) :
    (∀ f lru, lookup? c.freq_to_lru f = some lru →
      lru.entries.length ≤ c.max_size ∧ lru.maxsize = c.max_size) ∧
    (∀ k, getitem c k = getitemFree c k) ∧
    (∀ k v, setitem c k v = setitemNoDrop c k v) := by
  refine ⟨?_, ?_, ?_⟩
  · intro f lru hl
    exact ⟨le_trans (bucket_length_le hwf hl) hwf.card, hwf.bms f lru hl⟩
  · intro k
    cases hv : lookup? c.values k with
    | none => simp [getitem, getitemFree, hv]
    | some v =>
      obtain ⟨f, c', _, _, _, _, _, _, hfree⟩ := getitem_spec hwf hv
      exact hfree
  · intro k v
    by_cases hms0 : c.max_size = 0
    · simp [setitem, setitemNoDrop, hms0]
    · by_cases hcv : containsKey c.values k = true
      · obtain ⟨f, c', _, _, _, _, _, _, _, hfree⟩ := setitem_existing_spec hwf hcv v
        exact hfree
      · have hnk : containsKey c.values k = false := by
          cases h : containsKey c.values k
          · rfl
          · exact absurd h hcv
        by_cases hlt : c.values.length < c.max_size
        · obtain ⟨_, _, _, _, hfree⟩ := setitem_new_notfull_spec hwf hnk hlt v
          exact hfree
        · have hfeq : c.values.length = c.max_size :=
            le_antisymm hwf.card (le_of_not_lt hlt)
          have hpos : 0 < c.max_size := Nat.pos_of_ne_zero hms0
          obtain ⟨f₀, lru₀, ev, c₁, _, _, _, _, _, _, _, _, _, _, _, _, _, hfree⟩ :=
            setitem_new_full_spec hwf hnk hfeq hpos v
          exact hfree

/-- Witness for C9 at a concrete two-entry cache. -/
theorem C9_bucket_bound_never_binding_witness :
    (∀ f lru, lookup? (run (⟨3, [], [], []⟩ : LfuDictCache Nat)
        [Op.set 0 1, Op.set 1 2]).freq_to_lru f = some lru →
      lru.entries.length ≤ (run (⟨3, [], [], []⟩ : LfuDictCache Nat)
          [Op.set 0 1, Op.set 1 2]).max_size ∧
        lru.maxsize = (run (⟨3, [], [], []⟩ : LfuDictCache Nat)
          [Op.set 0 1, Op.set 1 2]).max_size) ∧
    (∀ k, getitem (run (⟨3, [], [], []⟩ : LfuDictCache Nat) [Op.set 0 1, Op.set 1 2]) k
      = getitemFree (run (⟨3, [], [], []⟩ : LfuDictCache Nat) [Op.set 0 1, Op.set 1 2]) k) ∧
    (∀ k v, setitem (run (⟨3, [], [], []⟩ : LfuDictCache Nat) [Op.set 0 1, Op.set 1 2]) k v
      = setitemNoDrop (run (⟨3, [], [], []⟩ : LfuDictCache Nat)
          [Op.set 0 1, Op.set 1 2]) k v) :=
  C9_bucket_bound_never_binding ((run_preserves (wf_nil 3) [Op.set 0 1, Op.set 1 2]).1)

/-- Claim C10: a `DictCache` constructed with `maxsize` 0, on the empty map,
first inserts the entry (the pre-drop content is exactly `[(k, v)]`) and
then immediately pops it as the oldest entry: after any `set` the map is
empty, its length is 0, and no key is retrievable. -/
theorem C10_dictcache_zero_maxsize (V : Type) (k : Nat) (v : V) :
    moveToEnd (dictSet ([] : List (Nat × V)) k v) k = [(k, v)] ∧
    ((DictCache.mk 0 ([] : List (Nat × V))).setitem k v).entries = [] ∧
    DictCache.size ((DictCache.mk 0 ([] : List (Nat × V))).setitem k v) = 0 ∧
    (∀ k', ((DictCache.mk 0 ([] : List (Nat × V))).setitem k v).getitem k' = none) := by
  have h1 : moveToEnd (dictSet ([] : List (Nat × V)) k v) k = [(k, v)] := by
    simp [dictSet, moveToEnd, lookup?, dictErase]
  have h2 : (DictCache.mk 0 ([] : List (Nat × V))).setitem k v
      = DictCache.mk 0 [] := by
    simp [DictCache.setitem, h1]
  refine ⟨h1, ?_, ?_, ?_⟩
  · rw [h2]
  · rw [h2]
    rfl
  · intro k'
    rw [h2]
    simp [DictCache.getitem, lookup?]

end LfuModel
